import Mathlib

/-!
Verification of the batch fetch manager in `src/data.js`
(`BatchFetchManager.fetchBatch` and `BatchFetchManager.fetchAllBatches`).

The JavaScript is shallowly embedded as follows.

* Records are values of an arbitrary type `α` (the code never inspects a
  record, it only moves arrays of them around).
* A network response body (`data` in `fetchBatch`) is a `RawResponse`:
  a `features` list plus the optional `exceededTransferLimit` flag
  (absent flag reads as `false`, matching `data.exceededTransferLimit ||`).
* `fetchBatch`'s per-attempt network behaviour (network failure, non-2xx
  status, timeout — all reaching the `catch`) is an oracle
  `attempts : Nat → Except Unit (RawResponse α)` giving the outcome of each
  attempt; the function returns the result together with the list of
  backoff delays (in milliseconds) it waited, in order.
* `fetchAllBatches` is an asynchronous loop suspended only at
  `await Promise.race(...)`.  A run is determined by
  - `src : Nat → Option (Batch α)`: the eventual settled outcome of
    `this.fetchBatch(offset)` for each offset — `some b` if it fulfills with
    batch `b`, `none` if it rejects (all retries exhausted), and
  - `prio : Nat → Nat`, the completion order: at each `Promise.race` the
    in-flight offset with the least priority settles (ties broken towards
    the earlier-dispatched offset).  An injective `prio` is exactly a
    permutation of fetch completion order.
  The loop is driven with explicit fuel (`run`); `none` means the fuel was
  exhausted before the `while` condition became false.
* `SchedState` carries the fields of `BatchFetchManager` plus the local
  `allFeatures` accumulator, and three ghost fields used only to state
  specifications: `settled` (offsets whose fetch has settled), `iters`
  (number of completed scheduler-loop iterations) and the `reports` list of
  progress-callback invocations; each `Report` also snapshots the scheduler
  state at the instant of the callback (`hasMoreAt`, `totalFetchedAt`,
  `nextFetchOffsetAt`).  Ghost data never feeds back into control flow.
* JavaScript `Map`s keyed by offset are association lists `List (Nat × _)`;
  within a run all inserted keys are fresh (proved as an invariant), so
  list append coincides with `Map.set`, and `List.filter` with
  `Map.delete`.  `Set` is a duplicate-free `List Nat`.
* `Math.round` on a non-negative quotient `n/d` is exact rational
  round-half-up, `(2*n + d) / (2*d)` in natural division.  When the
  denominator is `0` and the numerator positive, JavaScript produces
  `Infinity` and `Math.min(Infinity, 99) = 99`; `jsPercent` mirrors that
  (the callback is only reached with `loaded > 0`, and every reached call
  is proved to have a positive denominator).
-/

/-- One fetched page: the mapped `features` array and the
`exceededTransferLimit` flag as computed at the end of a successful
`fetchBatch` attempt (src/data.js lines 66-77). -/
structure Batch (α : Type) where
  features : List α
  exceededTransferLimit : Bool
deriving DecidableEq, Repr

/-- A raw successful response body, before the `fetchBatch` post-processing:
`features` and the source-reported `exceededTransferLimit` flag
(`false` when the field is absent). -/
structure RawResponse (α : Type) where
  features : List α
  exceededTransferLimit : Bool
deriving DecidableEq, Repr

/-- The body of the `if (data.features && data.features.length > 0)` branch
of `fetchBatch` (src/data.js lines 66-77): a non-empty page keeps its
features and derives the flag as
`data.exceededTransferLimit || features.length === this.batchSize`;
an empty page becomes `{features: [], exceededTransferLimit: false}`. -/
def responseToBatch (batchSize : Nat) (r : RawResponse α) : Batch α :=
  if r.features.length > 0 then
    ⟨r.features, r.exceededTransferLimit || (r.features.length == batchSize)⟩
  else
    ⟨[], false⟩

/-- The retry loop of `fetchBatch` (src/data.js lines 51-89), from attempt
index `attempt` with `remaining` retries left (`remaining` is
`retries - attempt`, so the guard `attempt < retries` is
`remaining > 0`).  Returns the final outcome together with the list of
backoff delays (ms) awaited, in order: on a caught error with retries left
the code waits `Math.pow(2, attempt) * 1000` ms and retries; otherwise it
rethrows. -/
def fetchBatchGo (batchSize : Nat) (attempts : Nat → Except Unit (RawResponse α)) :
    Nat → Nat → Except Unit (Batch α) × List Nat
  | attempt, 0 =>
    match attempts attempt with
    | .ok r => (.ok (responseToBatch batchSize r), [])
    | .error e => (.error e, [])
  | attempt, remaining + 1 =>
    match attempts attempt with
    | .ok r => (.ok (responseToBatch batchSize r), [])
    | .error _ =>
      let p := fetchBatchGo batchSize attempts (attempt + 1) remaining
      (p.1, 2 ^ attempt * 1000 :: p.2)

/-- `fetchBatch(offset, retries = 3)` (src/data.js line 48): the retry loop
started at attempt 0 with the default budget of 3 additional attempts. -/
def fetchBatch (batchSize : Nat) (attempts : Nat → Except Unit (RawResponse α)) :
    Except Unit (Batch α) × List Nat :=
  fetchBatchGo batchSize attempts 0 3

/-- One invocation of the progress callback (src/data.js lines 153-157),
together with ghost snapshots of the scheduler state at the instant of the
call (`hasMoreAt`, `totalFetchedAt`, `nextFetchOffsetAt`). -/
structure Report where
  loaded : Nat
  estimatedTotal : Nat
  percent : Nat
  hasMoreAt : Bool
  totalFetchedAt : Nat
  nextFetchOffsetAt : Nat
deriving DecidableEq, Repr

/-- The mutable state of one `fetchAllBatches` run: the fields initialised
by the `BatchFetchManager` constructor (src/data.js lines 34-46), the local
`allFeatures` accumulator, and the ghost fields `settled`, `reports`,
`iters` (specification instrumentation only). -/
@[ext]
structure SchedState (α : Type) where
  completed : List (Nat × Batch α)
  inFlight : List Nat
  failed : List Nat
  nextFetchOffset : Nat
  nextAggregateOffset : Nat
  hasMore : Bool
  totalFetched : Nat
  allFeatures : List α
  settled : List Nat
  reports : List Report
  iters : Nat
deriving DecidableEq, Repr

/-- The state right after `new BatchFetchManager(...)` and
`const allFeatures = []` (src/data.js lines 34-46, 93). -/
def initState (α : Type) : SchedState α :=
  ⟨[], [], [], 0, 0, true, 0, [], [], [], 0⟩

/-- One pass of the dispatch body (src/data.js lines 99-122): if
`hasMore && inFlight.size < maxConcurrent`, record `nextFetchOffset` as in
flight and advance it by `batchSize`.  `n` is fuel; the `while` loop runs at
most `maxConcurrent - inFlight.size` times because each pass grows
`inFlight` by one and nothing else changes the guard. -/
def dispatchN (batchSize maxConcurrent : Nat) : Nat → SchedState α → SchedState α
  | 0, s => s
  | n + 1, s =>
    if s.hasMore ∧ s.inFlight.length < maxConcurrent then
      dispatchN batchSize maxConcurrent n
        { s with
          inFlight := s.inFlight ++ [s.nextFetchOffset]
          nextFetchOffset := s.nextFetchOffset + batchSize }
    else s

/-- The inner dispatch `while` loop (src/data.js lines 99-122), run to
completion of its guard. -/
def dispatchLoop (batchSize maxConcurrent : Nat) (s : SchedState α) : SchedState α :=
  dispatchN batchSize maxConcurrent (maxConcurrent - s.inFlight.length) s

/-- The in-flight offset that settles first at `await Promise.race(...)`:
the one with the least completion priority, ties towards the
earlier-dispatched offset.  `none` iff nothing is in flight. -/
def pickMin (prio : Nat → Nat) : List Nat → Option Nat
  | [] => none
  | o :: rest =>
    match pickMin prio rest with
    | none => some o
    | some m => if prio o ≤ prio m then some o else some m

/-- `await Promise.race(...)` plus the settled promise's continuation
(src/data.js lines 103-118, 124-127): if anything is in flight, the
least-priority in-flight offset settles; on fulfilment its batch moves to
`completed` and `totalFetched` grows, on rejection the offset joins
`failed`; either way it leaves `inFlight`.  The ghost `settled` list records
the settlement. -/
def settleAt (src : Nat → Option (Batch α)) (o : Nat) (s : SchedState α) :
    SchedState α :=
  match src o with
  | some b =>
    { s with
      completed := s.completed ++ [(o, b)]
      inFlight := s.inFlight.erase o
      totalFetched := s.totalFetched + b.features.length
      settled := s.settled ++ [o] }
  | none =>
    { s with
      failed := s.failed ++ [o]
      inFlight := s.inFlight.erase o
      settled := s.settled ++ [o] }

/-- `await Promise.race(...)` proper: if anything is in flight, the
least-priority in-flight offset settles. -/
def settlePhase (src : Nat → Option (Batch α)) (prio : Nat → Nat) (s : SchedState α) :
    SchedState α :=
  match pickMin prio s.inFlight with
  | none => s
  | some o => settleAt src o s

/-- Lookup in the `completed` map (`this.completed.has/get`). -/
def lookupCompleted (k : Nat) : List (Nat × Batch α) → Option (Batch α)
  | [] => none
  | p :: rest => if p.1 = k then some p.2 else lookupCompleted k rest

/-- A successful `completed` lookup exhibits an entry with the looked-up
key (used for termination of the aggregation loop). -/
theorem lookupCompleted_mem {k : Nat} :
    ∀ {l : List (Nat × Batch α)} {b : Batch α}, lookupCompleted k l = some b →
      ∃ p ∈ l, p.1 = k ∧ p.2 = b
  | [], _, hl => by simp [lookupCompleted] at hl
  | q :: rest, b, hl => by
    by_cases hq : q.1 = k
    · simp only [lookupCompleted, hq, if_pos rfl] at hl
      exact ⟨q, List.mem_cons_self .., hq, by injection hl⟩
    · simp only [lookupCompleted, hq, if_false] at hl
      obtain ⟨p, hp, hp2⟩ := lookupCompleted_mem hl
      exact ⟨p, List.mem_cons_of_mem _ hp, hp2⟩

/-- One pass of the aggregation body, iterated `n` times (src/data.js lines
130-142): while `completed` holds the page at `nextAggregateOffset`, delete
it, append its features to `allFeatures`, clear `hasMore` if its
`exceededTransferLimit` is false, and advance `nextAggregateOffset` by
`batchSize`.  `n` is fuel; each pass removes a `completed` entry, so
`completed.length` passes exhaust the guard. -/
def aggregateN (batchSize : Nat) : Nat → SchedState α → SchedState α
  | 0, s => s
  | n + 1, s =>
    match lookupCompleted s.nextAggregateOffset s.completed with
    | none => s
    | some b =>
      aggregateN batchSize n
        { s with
          completed := s.completed.filter (fun p => p.1 ≠ s.nextAggregateOffset)
          allFeatures := s.allFeatures ++ b.features
          hasMore := s.hasMore && b.exceededTransferLimit
          nextAggregateOffset := s.nextAggregateOffset + batchSize }

/-- The aggregation `while` loop (src/data.js lines 130-142), run to
completion of its guard. -/
def aggregateLoop (batchSize : Nat) (s : SchedState α) : SchedState α :=
  aggregateN batchSize s.completed.length s

/-- Exact model of `Math.round((loaded / estimatedTotal) * 100)` followed by
`Math.min(·, 99)` (src/data.js line 150): round-half-up of the exact
rational `loaded*100/est`, capped at 99.  For `est = 0` and positive
`loaded`, JavaScript yields `Math.min(Infinity, 99) = 99` (the scheduler is
proved never to reach this case). -/
def jsPercent (loaded est : Nat) : Nat :=
  if est = 0 then 99 else min ((2 * (loaded * 100) + est) / (2 * est)) 99

/-- The progress report step (src/data.js lines 144-158): the callback runs
only when `allFeatures.length > 0`; `estimatedTotal` is
`max(totalFetched, nextFetchOffset)` while `hasMore` and `totalFetched`
afterwards; `percent` is the capped rounded ratio while `hasMore` and `100`
afterwards. -/
def reportPhase (s : SchedState α) : SchedState α :=
  if s.allFeatures.length > 0 then
    let estimatedTotal := if s.hasMore then max s.totalFetched s.nextFetchOffset
      else s.totalFetched
    let percent := if s.hasMore then jsPercent s.allFeatures.length estimatedTotal else 100
    { s with reports := s.reports ++
        [⟨s.allFeatures.length, estimatedTotal, percent, s.hasMore, s.totalFetched,
          s.nextFetchOffset⟩] }
  else s

/-- One iteration of the scheduler `while` loop body (src/data.js lines
97-159): dispatch up to the concurrency window, wait for one settlement,
drain `completed` in order, report progress.  The ghost `iters` counter
records that an iteration ran. -/
def iter (batchSize maxConcurrent : Nat) (src : Nat → Option (Batch α))
    (prio : Nat → Nat) (s : SchedState α) : SchedState α :=
  let s4 := reportPhase (aggregateLoop batchSize
    (settlePhase src prio (dispatchLoop batchSize maxConcurrent s)))
  { s4 with iters := s.iters + 1 }

/-- The scheduler loop guard `this.hasMore || this.inFlight.size > 0`
(src/data.js line 97). -/
def loopCond (s : SchedState α) : Bool :=
  s.hasMore || !s.inFlight.isEmpty

/-- The scheduler `while` loop (src/data.js lines 97-159) driven by fuel:
`none` means the guard was still true after `fuel` iterations. -/
def run (batchSize maxConcurrent : Nat) (src : Nat → Option (Batch α))
    (prio : Nat → Nat) : Nat → SchedState α → Option (SchedState α)
  | fuel, s =>
    if loopCond s then
      match fuel with
      | 0 => none
      | fuel + 1 => run batchSize maxConcurrent src prio fuel
          (iter batchSize maxConcurrent src prio s)
    else some s

/-- The tail of `fetchAllBatches` (src/data.js lines 161-172): throw
`'Failed to fetch any batches'` iff nothing was aggregated and some offset
failed, otherwise return the aggregated records. -/
def finishRun (s : SchedState α) : Except Unit (List α) :=
  if s.allFeatures.length = 0 ∧ s.failed.length > 0 then .error ()
  else .ok s.allFeatures

/-- `fetchAllBatches` (src/data.js lines 92-173) for a run with settlement
outcomes `src`, completion order `prio` and the given fuel: the loop from
the constructor state, then the final empty-vs-failed check. -/
def fetchAllBatches (batchSize maxConcurrent : Nat) (src : Nat → Option (Batch α))
    (prio : Nat → Nat) (fuel : Nat) : Option (Except Unit (List α)) :=
  (run batchSize maxConcurrent src prio fuel (initState α)).map finishRun

/-! ### Retry/backoff policy of `fetchBatch` -/

/-- Peeling the first backoff delay off the delay-list formula. -/
theorem pow_delay_shift (a m : Nat) :
    (List.range (m + 1)).map (fun i => 2 ^ (a + i) * 1000) =
      2 ^ a * 1000 :: (List.range m).map (fun i => 2 ^ (a + 1 + i) * 1000) := by
  rw [List.range_succ_eq_map, List.map_cons, List.map_map]
  refine congrArg₂ List.cons (by simp) ?_
  apply List.map_congr_left
  intro i _
  simp only [Function.comp_apply]
  congr 2
  omega

/-- The retry loop makes at most `remaining` further attempts: the delay
list has at most `remaining` entries. -/
theorem fetchBatchGo_length_le (batchSize : Nat)
    (attempts : Nat → Except Unit (RawResponse α)) :
    ∀ remaining attempt, (fetchBatchGo batchSize attempts attempt remaining).2.length ≤ remaining
  | 0, attempt => by
    cases h : attempts attempt <;> simp [fetchBatchGo, h]
  | remaining + 1, attempt => by
    cases h : attempts attempt with
    | ok r => simp [fetchBatchGo, h]
    | error e =>
      have ih := fetchBatchGo_length_le batchSize attempts remaining (attempt + 1)
      simp only [fetchBatchGo, h, List.length_cons]
      omega

/-- The backoff delays awaited by the retry loop are exactly
`2^attempt * 1000, 2^(attempt+1) * 1000, ...` for as many retries as were
taken (at most `remaining` of them). -/
theorem fetchBatchGo_delays (batchSize : Nat)
    (attempts : Nat → Except Unit (RawResponse α)) :
    ∀ remaining attempt, ∃ m, m ≤ remaining ∧
      (fetchBatchGo batchSize attempts attempt remaining).2 =
        (List.range m).map (fun i => 2 ^ (attempt + i) * 1000)
  | 0, attempt => by
    refine ⟨0, le_rfl, ?_⟩
    cases h : attempts attempt <;> simp [fetchBatchGo, h]
  | remaining + 1, attempt => by
    cases h : attempts attempt with
    | ok r => exact ⟨0, by omega, by simp [fetchBatchGo, h]⟩
    | error e =>
      obtain ⟨m, hm, ih⟩ := fetchBatchGo_delays batchSize attempts remaining (attempt + 1)
      refine ⟨m + 1, by omega, ?_⟩
      simp only [fetchBatchGo, h, ih, pow_delay_shift]

/-- If every attempt in the window fails, the retry loop rethrows the last
error. -/
theorem fetchBatchGo_all_fail (batchSize : Nat)
    (attempts : Nat → Except Unit (RawResponse α)) :
    ∀ remaining attempt, (∀ i, attempt ≤ i → i ≤ attempt + remaining → attempts i = .error ()) →
      (fetchBatchGo batchSize attempts attempt remaining).1 = .error ()
  | 0, attempt, h => by
    have h0 := h attempt le_rfl (by omega)
    simp [fetchBatchGo, h0]
  | remaining + 1, attempt, h => by
    have h0 := h attempt le_rfl (by omega)
    have ih := fetchBatchGo_all_fail batchSize attempts remaining (attempt + 1)
      (fun i h1 h2 => h i (by omega) (by omega))
    simp [fetchBatchGo, h0, ih]

/-- If attempts `attempt, ..., k-1` fail and attempt `k` (within the retry
window) succeeds with raw response `r`, the retry loop returns the processed
page and waited exactly the `k - attempt` backoff delays before it. -/
theorem fetchBatchGo_success (batchSize : Nat)
    (attempts : Nat → Except Unit (RawResponse α)) :
    ∀ remaining attempt k r, attempt ≤ k → k ≤ attempt + remaining →
      (∀ i, attempt ≤ i → i < k → attempts i = .error ()) → attempts k = .ok r →
      fetchBatchGo batchSize attempts attempt remaining =
        (.ok (responseToBatch batchSize r),
          (List.range (k - attempt)).map (fun i => 2 ^ (attempt + i) * 1000)) := by
  intro remaining
  induction remaining with
  | zero =>
    intro attempt k r hak hkr hfail hok
    have heq : k = attempt := by omega
    subst heq
    simp [fetchBatchGo, hok]
  | succ rem ih =>
    intro attempt k r hak hkr hfail hok
    rcases Nat.eq_or_lt_of_le hak with heq | hlt
    · subst heq
      simp [fetchBatchGo, hok]
    · have h0 := hfail attempt le_rfl hlt
      have ihk := ih (attempt + 1) k r (by omega) (by omega)
        (fun i h1 h2 => hfail i (by omega) h2) hok
      have hk : k - attempt = (k - (attempt + 1)) + 1 := by omega
      simp only [fetchBatchGo, h0, ihk, hk, pow_delay_shift]

/-! ### Structural facts about the scheduler phases -/

/-- `pickMin` returns `none` exactly on an empty in-flight map. -/
theorem pickMin_eq_none {prio : Nat → Nat} :
    ∀ {l : List Nat}, pickMin prio l = none ↔ l = []
  | [] => by simp [pickMin]
  | o :: rest => by
    constructor
    · intro h
      exfalso
      cases hm : pickMin prio rest with
      | none => simp [pickMin, hm] at h
      | some m =>
        simp only [pickMin, hm] at h
        by_cases hle : prio o ≤ prio m
        · rw [if_pos hle] at h; cases h
        · rw [if_neg hle] at h; cases h
    · intro h; cases h

/-- The offset picked by `pickMin` is in flight. -/
theorem pickMin_mem {prio : Nat → Nat} :
    ∀ {l : List Nat} {o : Nat}, pickMin prio l = some o → o ∈ l
  | [], o, h => by simp [pickMin] at h
  | x :: rest, o, h => by
    cases hm : pickMin prio rest with
    | none =>
      simp only [pickMin, hm] at h
      injection h with h
      simp [h]
    | some m =>
      simp only [pickMin, hm] at h
      by_cases hle : prio x ≤ prio m
      · rw [if_pos hle] at h; injection h with h; simp [h]
      · rw [if_neg hle] at h
        injection h with h
        subst h
        exact List.mem_cons_of_mem _ (pickMin_mem hm)

/-- The offset picked by `pickMin` has minimal priority among the in-flight
offsets. -/
theorem pickMin_min {prio : Nat → Nat} :
    ∀ {l : List Nat} {o : Nat}, pickMin prio l = some o → ∀ x ∈ l, prio o ≤ prio x
  | [], o, h => by simp [pickMin] at h
  | x :: rest, o, h => by
    cases hm : pickMin prio rest with
    | none =>
      simp only [pickMin, hm] at h
      injection h with h
      subst h
      intro y hy
      rcases List.mem_cons.mp hy with rfl | hy2
      · exact le_rfl
      · rw [pickMin_eq_none.mp hm] at hy2
        simp at hy2
    | some m =>
      simp only [pickMin, hm] at h
      have hmin := pickMin_min hm
      by_cases hle : prio x ≤ prio m
      · rw [if_pos hle] at h
        injection h with h
        subst h
        intro y hy
        rcases List.mem_cons.mp hy with rfl | hy2
        · exact le_rfl
        · exact le_trans hle (hmin y hy2)
      · rw [if_neg hle] at h
        injection h with h
        subst h
        intro y hy
        rcases List.mem_cons.mp hy with rfl | hy2
        · exact le_of_lt (lt_of_not_le hle)
        · exact hmin y hy2

/-- Peeling the first offset off a block of consecutively dispatched
offsets. -/
theorem offsets_range_succ (nfo b m : Nat) :
    (List.range (m + 1)).map (fun i => nfo + b * i) =
      nfo :: (List.range m).map (fun i => nfo + b + b * i) := by
  rw [List.range_succ_eq_map, List.map_cons, List.map_map]
  refine congrArg₂ List.cons (by simp) ?_
  apply List.map_congr_left
  intro i _
  simp only [Function.comp_apply, Nat.mul_succ]
  omega

/-- The dispatch loop touches only `inFlight` and `nextFetchOffset`. -/
theorem dispatchN_unchanged (b mc : Nat) :
    ∀ (n : Nat) (s : SchedState α),
      (dispatchN b mc n s).completed = s.completed ∧
      (dispatchN b mc n s).failed = s.failed ∧
      (dispatchN b mc n s).settled = s.settled ∧
      (dispatchN b mc n s).hasMore = s.hasMore ∧
      (dispatchN b mc n s).nextAggregateOffset = s.nextAggregateOffset ∧
      (dispatchN b mc n s).allFeatures = s.allFeatures ∧
      (dispatchN b mc n s).reports = s.reports ∧
      (dispatchN b mc n s).totalFetched = s.totalFetched ∧
      (dispatchN b mc n s).iters = s.iters
  | 0, s => by simp [dispatchN]
  | n + 1, s => by
    simp only [dispatchN]
    by_cases hc : s.hasMore ∧ s.inFlight.length < mc
    · rw [if_pos hc]
      exact dispatchN_unchanged b mc n _
    · rw [if_neg hc]
      simp

/-- Closed form of the dispatch loop on the fields it does change: it
appends some number `m` of new offsets
`nextFetchOffset, nextFetchOffset + batchSize, ...` to `inFlight` and
advances `nextFetchOffset` past them. -/
theorem dispatchN_growth (b mc : Nat) :
    ∀ (n : Nat) (s : SchedState α), ∃ m : Nat, m ≤ n ∧
      (dispatchN b mc n s).inFlight =
        s.inFlight ++ (List.range m).map (fun i => s.nextFetchOffset + b * i) ∧
      (dispatchN b mc n s).nextFetchOffset = s.nextFetchOffset + b * m
  | 0, s => ⟨0, le_rfl, by simp [dispatchN]⟩
  | n + 1, s => by
    simp only [dispatchN]
    by_cases hc : s.hasMore ∧ s.inFlight.length < mc
    · rw [if_pos hc]
      obtain ⟨m, hmn, h1, h2⟩ := dispatchN_growth b mc n
        { s with
          inFlight := s.inFlight ++ [s.nextFetchOffset]
          nextFetchOffset := s.nextFetchOffset + b }
      refine ⟨m + 1, by omega, ?_, ?_⟩
      · rw [h1, offsets_range_succ]
        simp
      · rw [h2]
        show s.nextFetchOffset + b + b * m = s.nextFetchOffset + b * (m + 1)
        rw [Nat.mul_succ]
        omega
    · rw [if_neg hc]
      exact ⟨0, by omega, by simp⟩

/-- With the window fuel available, a dispatch pass from a `hasMore` state
fills the in-flight window exactly to `maxConcurrent`. -/
theorem dispatchN_fills (b mc : Nat) :
    ∀ (n : Nat) (s : SchedState α), s.hasMore = true → s.inFlight.length + n = mc →
      (dispatchN b mc n s).inFlight.length = mc
  | 0, s, _, hlen => by simpa [dispatchN] using hlen
  | n + 1, s, hm, hlen => by
    simp only [dispatchN]
    rw [if_pos ⟨hm, by omega⟩]
    exact dispatchN_fills b mc n _ hm (by simp; omega)

/-- From a `hasMore` state inside the concurrency bound, the dispatch loop
fills the window exactly to `maxConcurrent`. -/
theorem dispatchLoop_fills (b mc : Nat) (s : SchedState α) (hm : s.hasMore = true)
    (hlen : s.inFlight.length ≤ mc) :
    (dispatchLoop b mc s).inFlight.length = mc :=
  dispatchN_fills b mc (mc - s.inFlight.length) s hm (by omega)

/-- The aggregation loop touches only `completed`, `allFeatures`, `hasMore`
and `nextAggregateOffset`. -/
theorem aggregateN_unchanged (b : Nat) :
    ∀ (n : Nat) (s : SchedState α),
      (aggregateN b n s).inFlight = s.inFlight ∧
      (aggregateN b n s).failed = s.failed ∧
      (aggregateN b n s).settled = s.settled ∧
      (aggregateN b n s).nextFetchOffset = s.nextFetchOffset ∧
      (aggregateN b n s).reports = s.reports ∧
      (aggregateN b n s).totalFetched = s.totalFetched ∧
      (aggregateN b n s).iters = s.iters
  | 0, s => by simp [aggregateN]
  | n + 1, s => by
    simp only [aggregateN]
    cases hl : lookupCompleted s.nextAggregateOffset s.completed with
    | none => simp
    | some bch => exact aggregateN_unchanged b n _

/-- The aggregation loop only appends to `allFeatures`, and
`nextAggregateOffset` never moves backwards. -/
theorem aggregateN_extends (b : Nat) :
    ∀ (n : Nat) (s : SchedState α), ∃ t : List α,
      (aggregateN b n s).allFeatures = s.allFeatures ++ t ∧
      s.nextAggregateOffset ≤ (aggregateN b n s).nextAggregateOffset
  | 0, s => ⟨[], by simp [aggregateN]⟩
  | n + 1, s => by
    simp only [aggregateN]
    cases hl : lookupCompleted s.nextAggregateOffset s.completed with
    | none => exact ⟨[], by simp⟩
    | some bch =>
      obtain ⟨t, ht, hmono⟩ := aggregateN_extends b n
        { s with
          completed := s.completed.filter (fun p => p.1 ≠ s.nextAggregateOffset)
          allFeatures := s.allFeatures ++ bch.features
          hasMore := s.hasMore && bch.exceededTransferLimit
          nextAggregateOffset := s.nextAggregateOffset + b }
      refine ⟨bch.features ++ t, ?_, ?_⟩
      · rw [ht]; simp
      · refine le_trans ?_ hmono
        simp

/-- The aggregation loop can only clear `hasMore`, never set it. -/
theorem aggregateN_hasMore_mono (b : Nat) :
    ∀ (n : Nat) (s : SchedState α),
      (aggregateN b n s).hasMore = true → s.hasMore = true
  | 0, s => by simp [aggregateN]
  | n + 1, s => by
    simp only [aggregateN]
    cases hl : lookupCompleted s.nextAggregateOffset s.completed with
    | none => simp
    | some bch =>
      intro h
      have := aggregateN_hasMore_mono b n _ h
      simp only [Bool.and_eq_true] at this
      exact this.1

/-- Every entry surviving the aggregation loop was already in `completed`. -/
theorem aggregateN_completed_sub (b : Nat) :
    ∀ (n : Nat) (s : SchedState α) (p : Nat × Batch α),
      p ∈ (aggregateN b n s).completed → p ∈ s.completed
  | 0, s, p => by simp [aggregateN]
  | n + 1, s, p => by
    simp only [aggregateN]
    cases hl : lookupCompleted s.nextAggregateOffset s.completed with
    | none => simp
    | some bch =>
      intro h
      have := aggregateN_completed_sub b n _ p h
      simp only [List.mem_filter] at this
      exact this.1

/-- The settle phase touches only `completed`, `inFlight`, `failed`,
`totalFetched` and the ghost `settled`. -/
theorem settlePhase_unchanged (src : Nat → Option (Batch α)) (prio : Nat → Nat)
    (s : SchedState α) :
    (settlePhase src prio s).nextFetchOffset = s.nextFetchOffset ∧
    (settlePhase src prio s).nextAggregateOffset = s.nextAggregateOffset ∧
    (settlePhase src prio s).hasMore = s.hasMore ∧
    (settlePhase src prio s).allFeatures = s.allFeatures ∧
    (settlePhase src prio s).reports = s.reports ∧
    (settlePhase src prio s).iters = s.iters := by
  unfold settlePhase
  cases hp : pickMin prio s.inFlight with
  | none => simp
  | some o =>
    show (settleAt src o s).nextFetchOffset = _ ∧ _
    unfold settleAt
    cases hs : src o <;> simp [hs]

/-- The report phase touches only `reports`. -/
theorem reportPhase_unchanged (s : SchedState α) :
    (reportPhase s).completed = s.completed ∧
    (reportPhase s).inFlight = s.inFlight ∧
    (reportPhase s).failed = s.failed ∧
    (reportPhase s).settled = s.settled ∧
    (reportPhase s).nextFetchOffset = s.nextFetchOffset ∧
    (reportPhase s).nextAggregateOffset = s.nextAggregateOffset ∧
    (reportPhase s).hasMore = s.hasMore ∧
    (reportPhase s).totalFetched = s.totalFetched ∧
    (reportPhase s).allFeatures = s.allFeatures := by
  unfold reportPhase
  by_cases h : s.allFeatures.length > 0 <;> simp [h]

/-! ### Arithmetic and list helpers for the scheduler invariant -/

/-- Membership in a block of consecutively dispatched offsets is exactly
being a multiple of `b` in the dispatched interval. -/
theorem mem_offset_block {b nfo m o : Nat} (hb : 0 < b) (hd : b ∣ nfo) :
    o ∈ (List.range m).map (fun i => nfo + b * i) ↔
      (b ∣ o ∧ nfo ≤ o ∧ o < nfo + b * m) := by
  simp only [List.mem_map, List.mem_range]
  constructor
  · rintro ⟨i, him, rfl⟩
    refine ⟨Dvd.dvd.add hd (Dvd.intro i rfl), Nat.le_add_right _ _, ?_⟩
    have hbm : b * i < b * m := mul_lt_mul_of_pos_left him hb
    omega
  · rintro ⟨hdvd, hle, hlt⟩
    obtain ⟨c, hc⟩ := Nat.dvd_sub' hdvd hd
    refine ⟨c, ?_, ?_⟩
    · have hcm : b * c < b * m := by omega
      exact lt_of_mul_lt_mul_left hcm (Nat.zero_le b)
    · omega

/-- A block of consecutively dispatched offsets has no duplicates when the
batch size is positive. -/
theorem nodup_offset_block {b : Nat} (nfo m : Nat) (hb : 0 < b) :
    ((List.range m).map (fun i => nfo + b * i)).Nodup := by
  refine List.Nodup.map ?_ (List.nodup_range m)
  intro i j hij
  have hij2 : nfo + b * i = nfo + b * j := hij
  have hbi : b * i = b * j := by omega
  exact Nat.eq_of_mul_eq_mul_left hb hbi

/-- Between two distinct multiples of `b` there is room for a full step. -/
theorem next_multiple_le {b x y : Nat} (hb : 0 < b) (hx : b ∣ x) (hy : b ∣ y)
    (hlt : y < x) : y + b ≤ x := by
  have hdvd : b ∣ x - y := Nat.dvd_sub' hx hy
  have hpos : 0 < x - y := by omega
  have := Nat.le_of_dvd hpos hdvd
  omega

/-- Keys surviving the `Map.delete` of the aggregation body. -/
theorem keys_filter_mem {l : List (Nat × Batch α)} {k x : Nat} :
    x ∈ (l.filter (fun p => p.1 ≠ k)).map Prod.fst ↔
      (x ∈ l.map Prod.fst ∧ x ≠ k) := by
  simp only [List.mem_map, List.mem_filter, ne_eq, decide_not, Bool.not_eq_eq_eq_not,
    Bool.not_true, decide_eq_false_iff_not]
  constructor
  · rintro ⟨p, ⟨hp, hpk⟩, rfl⟩
    exact ⟨⟨p, hp, rfl⟩, hpk⟩
  · rintro ⟨⟨p, hp, rfl⟩, hxk⟩
    exact ⟨p, ⟨hp, hxk⟩, rfl⟩

/-- Deleting the looked-up entry removes exactly its contribution from any
sum over the map (keys are unique). -/
theorem sum_filter_lookup (g : Nat × Batch α → Nat) :
    ∀ {l : List (Nat × Batch α)} {k : Nat} {bch : Batch α},
      (l.map Prod.fst).Nodup → lookupCompleted k l = some bch →
      (l.map g).sum = g (k, bch) + ((l.filter (fun p => p.1 ≠ k)).map g).sum
  | [], k, bch, hnd, hl => by simp [lookupCompleted] at hl
  | ⟨q1, q2⟩ :: rest, k, bch, hnd, hl => by
    have hnd1 : q1 ∉ rest.map Prod.fst := by
      have h2 : (q1 :: rest.map Prod.fst).Nodup := by simpa using hnd
      exact (List.nodup_cons.mp h2).1
    have hnd2 : (rest.map Prod.fst).Nodup := by
      have h2 : (q1 :: rest.map Prod.fst).Nodup := by simpa using hnd
      exact (List.nodup_cons.mp h2).2
    by_cases hq : q1 = k
    · subst hq
      simp only [lookupCompleted, if_pos rfl] at hl
      injection hl with hl
      subst hl
      have hrest : rest.filter (fun p => p.1 ≠ q1) = rest := by
        apply List.filter_eq_self.mpr
        intro p hp
        simp only [ne_eq, decide_eq_true_eq]
        intro hpk
        have hmem : p.1 ∈ rest.map Prod.fst := List.mem_map.mpr ⟨p, hp, rfl⟩
        rw [hpk] at hmem
        exact hnd1 hmem
      simp only [List.map_cons, List.sum_cons, List.filter_cons]
      have hdec : (decide ((q1, q2).1 ≠ q1)) = false := by simp
      rw [hdec]
      simp only [Bool.false_eq_true, if_false, hrest]
    · simp only [lookupCompleted, if_neg hq] at hl
      have ih := sum_filter_lookup g hnd2 hl
      simp only [List.map_cons, List.sum_cons, List.filter_cons]
      have hdec : (decide ((q1, q2).1 ≠ k)) = true := by simp [hq]
      rw [hdec]
      simp only [if_true, List.map_cons, List.sum_cons]
      omega

/-! ### The scheduler-loop invariant -/

/-- The invariant maintained by every phase of the scheduler loop of
`fetchAllBatches` (for a positive batch size `b` and concurrency bound
`mc`): the three offset maps are duplicate-free and pairwise disjoint;
every offset they hold is a multiple of `b` in the window
`[nextAggregateOffset, nextFetchOffset)`; both cursors are multiples of `b`
in order; the concurrency window is respected; `totalFetched` accounts
exactly for the aggregated records plus the records still buffered in
`completed`; the ghost `settled` list is exactly the settled offsets
(completed, failed or already aggregated) and together with `inFlight`
partitions the dispatched offsets; and every recorded progress report was
made with positive `loaded` bounded by the aggregate length and carries the
`estimatedTotal` the code computes, with `loaded` non-decreasing along the
report history. -/
structure GInv (b mc : Nat) (s : SchedState α) : Prop where
  nodupC : (s.completed.map Prod.fst).Nodup
  nodupI : s.inFlight.Nodup
  nodupF : s.failed.Nodup
  nodupS : s.settled.Nodup
  disjCI : ∀ o ∈ s.completed.map Prod.fst, o ∉ s.inFlight
  disjCF : ∀ o ∈ s.completed.map Prod.fst, o ∉ s.failed
  disjIF : ∀ o ∈ s.inFlight, o ∉ s.failed
  disjSI : ∀ o ∈ s.settled, o ∉ s.inFlight
  keyC : ∀ o ∈ s.completed.map Prod.fst,
    b ∣ o ∧ s.nextAggregateOffset ≤ o ∧ o < s.nextFetchOffset
  keyI : ∀ o ∈ s.inFlight,
    b ∣ o ∧ s.nextAggregateOffset ≤ o ∧ o < s.nextFetchOffset
  keyF : ∀ o ∈ s.failed,
    b ∣ o ∧ s.nextAggregateOffset ≤ o ∧ o < s.nextFetchOffset
  dvdA : b ∣ s.nextAggregateOffset
  dvdN : b ∣ s.nextFetchOffset
  aLeN : s.nextAggregateOffset ≤ s.nextFetchOffset
  lenI : s.inFlight.length ≤ mc
  tfEq : s.totalFetched =
    s.allFeatures.length + (s.completed.map (fun p => p.2.features.length)).sum
  settledChar : ∀ o, o ∈ s.settled ↔
    (o ∈ s.completed.map Prod.fst ∨ o ∈ s.failed ∨
      (b ∣ o ∧ o < s.nextAggregateOffset))
  dispatchedChar : ∀ o,
    (b ∣ o ∧ o < s.nextFetchOffset) ↔ (o ∈ s.inFlight ∨ o ∈ s.settled)
  reportsOk : ∀ r ∈ s.reports, 0 < r.loaded ∧ r.loaded ≤ s.allFeatures.length ∧
    r.loaded ≤ r.totalFetchedAt ∧
    r.estimatedTotal =
      (if r.hasMoreAt then max r.totalFetchedAt r.nextFetchOffsetAt else r.totalFetchedAt)
  reportsMono : s.reports.Pairwise (fun r1 r2 => r1.loaded ≤ r2.loaded)

/-- Every settled offset is a multiple of the batch size below the fetch
cursor. -/
theorem GInv.settled_bounds {b mc : Nat} {s : SchedState α} (h : GInv b mc s)
    {o : Nat} (ho : o ∈ s.settled) : b ∣ o ∧ o < s.nextFetchOffset := by
  rcases (h.settledChar o).mp ho with hc | hf | ⟨hd, hlt⟩
  · exact ⟨(h.keyC o hc).1, (h.keyC o hc).2.2⟩
  · exact ⟨(h.keyF o hf).1, (h.keyF o hf).2.2⟩
  · exact ⟨hd, lt_of_lt_of_le hlt h.aLeN⟩

/-- The constructor state satisfies the invariant. -/
theorem ginv_init (α : Type) (b mc : Nat) : GInv b mc (initState α) := by
  constructor <;> simp [initState]

/-- The invariant survives appending a block of `m` freshly dispatched
offsets (stated on the explicit record the dispatch loop produces). -/
theorem ginv_dispatch_core {b mc : Nat} {s : SchedState α} (hb : 0 < b)
    (h : GInv b mc s) (m : Nat) (hm : s.inFlight.length + m ≤ mc) :
    GInv b mc
      { s with
        inFlight := s.inFlight ++
          (List.range m).map (fun i => s.nextFetchOffset + b * i)
        nextFetchOffset := s.nextFetchOffset + b * m } := by
  have hblock : ∀ o, o ∈ (List.range m).map (fun i => s.nextFetchOffset + b * i) ↔
      (b ∣ o ∧ s.nextFetchOffset ≤ o ∧ o < s.nextFetchOffset + b * m) :=
    fun o => mem_offset_block hb h.dvdN
  constructor
  · exact h.nodupC
  · rw [List.nodup_append]
    refine ⟨h.nodupI, nodup_offset_block _ m hb, ?_⟩
    intro o ho hob
    have h1 := (h.keyI o ho).2.2
    have h2 := ((hblock o).mp hob).2.1
    omega
  · exact h.nodupF
  · exact h.nodupS
  · intro o ho
    rw [List.mem_append]
    rintro (hi | hob)
    · exact h.disjCI o ho hi
    · have h1 := (h.keyC o ho).2.2
      have h2 := ((hblock o).mp hob).2.1
      omega
  · exact h.disjCF
  · intro o ho
    rw [List.mem_append] at ho
    rcases ho with hi | hob
    · exact h.disjIF o hi
    · intro hfo
      have h1 := (h.keyF o hfo).2.2
      have h2 := ((hblock o).mp hob).2.1
      omega
  · intro o ho
    rw [List.mem_append]
    rintro (hi | hob)
    · exact h.disjSI o ho hi
    · have h1 := (h.settled_bounds ho).2
      have h2 := ((hblock o).mp hob).2.1
      omega
  · intro o ho
    obtain ⟨hd, hle, hlt⟩ := h.keyC o ho
    refine ⟨hd, hle, ?_⟩
    show o < s.nextFetchOffset + b * m
    omega
  · intro o ho
    rw [List.mem_append] at ho
    rcases ho with hi | hob
    · obtain ⟨hd, hle, hlt⟩ := h.keyI o hi
      refine ⟨hd, hle, ?_⟩
      show o < s.nextFetchOffset + b * m
      omega
    · obtain ⟨hd, hle, hlt⟩ := (hblock o).mp hob
      exact ⟨hd, le_trans h.aLeN hle, hlt⟩
  · intro o ho
    obtain ⟨hd, hle, hlt⟩ := h.keyF o ho
    refine ⟨hd, hle, ?_⟩
    show o < s.nextFetchOffset + b * m
    omega
  · exact h.dvdA
  · exact Dvd.dvd.add h.dvdN (Dvd.intro m rfl)
  · show s.nextAggregateOffset ≤ s.nextFetchOffset + b * m
    have := h.aLeN
    omega
  · simp only [List.length_append, List.length_map, List.length_range]
    omega
  · exact h.tfEq
  · exact h.settledChar
  · intro o
    constructor
    · rintro ⟨hd, hlt⟩
      by_cases hcase : o < s.nextFetchOffset
      · rcases (h.dispatchedChar o).mp ⟨hd, hcase⟩ with hi | hs
        · exact Or.inl (List.mem_append_left _ hi)
        · exact Or.inr hs
      · refine Or.inl (List.mem_append_right _ ?_)
        exact (hblock o).mpr ⟨hd, by omega, hlt⟩
    · rintro (ho | ho)
      · rw [List.mem_append] at ho
        rcases ho with hi | hob
        · obtain ⟨hd, _, hlt⟩ := h.keyI o hi
          refine ⟨hd, ?_⟩
          show o < s.nextFetchOffset + b * m
          omega
        · obtain ⟨hd, _, hlt⟩ := (hblock o).mp hob
          exact ⟨hd, hlt⟩
      · obtain ⟨hd, hlt⟩ := h.settled_bounds ho
        refine ⟨hd, ?_⟩
        show o < s.nextFetchOffset + b * m
        omega
  · exact h.reportsOk
  · exact h.reportsMono

/-- The dispatch loop preserves the invariant. -/
theorem ginv_dispatchLoop {b mc : Nat} {s : SchedState α} (hb : 0 < b)
    (h : GInv b mc s) : GInv b mc (dispatchLoop b mc s) := by
  obtain ⟨m, hmn, h1, h2⟩ := dispatchN_growth b mc (mc - s.inFlight.length) s
  obtain ⟨hc, hf, hs, hhm, hna, haf, hr, htf, hit⟩ :=
    dispatchN_unchanged b mc (mc - s.inFlight.length) s
  have key : dispatchLoop b mc s =
      { s with
        inFlight := s.inFlight ++
          (List.range m).map (fun i => s.nextFetchOffset + b * i)
        nextFetchOffset := s.nextFetchOffset + b * m } := by
    apply SchedState.ext <;>
      first
        | exact hc
        | exact h1
        | exact hf
        | exact h2
        | exact hna
        | exact hhm
        | exact htf
        | exact haf
        | exact hs
        | exact hr
        | exact hit
  rw [key]
  refine ginv_dispatch_core hb h m ?_
  have := h.lenI
  omega

/-- The invariant survives a successful settlement of an in-flight offset
(stated on the explicit record the `.then` continuation produces). -/
theorem ginv_settle_success {b mc : Nat} {s : SchedState α} (h : GInv b mc s)
    {o : Nat} (ho : o ∈ s.inFlight) (bch : Batch α) :
    GInv b mc
      { s with
        completed := s.completed ++ [(o, bch)]
        inFlight := s.inFlight.erase o
        totalFetched := s.totalFetched + bch.features.length
        settled := s.settled ++ [o] } := by
  have hoK : o ∉ s.completed.map Prod.fst := fun hk => h.disjCI o hk ho
  have hoS : o ∉ s.settled := fun hs => h.disjSI o hs ho
  have hoF : o ∉ s.failed := h.disjIF o ho
  have herase_sub : ∀ x, x ∈ s.inFlight.erase o → x ∈ s.inFlight :=
    fun x hx => List.mem_of_mem_erase hx
  have herase_iff : ∀ x, x ∈ s.inFlight.erase o ↔ (x ≠ o ∧ x ∈ s.inFlight) :=
    fun x => List.Nodup.mem_erase_iff h.nodupI
  constructor
  · simp only [List.map_append, List.map_cons, List.map_nil]
    rw [List.nodup_append]
    exact ⟨h.nodupC, List.nodup_singleton o, fun x hx hx2 => by
      simp only [List.mem_singleton] at hx2
      exact hoK (hx2 ▸ hx)⟩
  · exact h.nodupI.erase o
  · exact h.nodupF
  · rw [List.nodup_append]
    exact ⟨h.nodupS, List.nodup_singleton o, fun x hx hx2 => by
      simp only [List.mem_singleton] at hx2
      exact hoS (hx2 ▸ hx)⟩
  · intro x hx
    simp only [List.map_append, List.map_cons, List.map_nil, List.mem_append,
      List.mem_singleton] at hx
    rcases hx with hk | rfl
    · intro hxe
      exact h.disjCI x hk (herase_sub x hxe)
    · intro hxe
      exact ((herase_iff x).mp hxe).1 rfl
  · intro x hx
    simp only [List.map_append, List.map_cons, List.map_nil, List.mem_append,
      List.mem_singleton] at hx
    rcases hx with hk | rfl
    · exact h.disjCF x hk
    · exact hoF
  · intro x hx
    exact h.disjIF x (herase_sub x hx)
  · intro x hx
    rw [List.mem_append, List.mem_singleton] at hx
    intro hxe
    rcases hx with hs | rfl
    · exact h.disjSI x hs (herase_sub x hxe)
    · exact ((herase_iff x).mp hxe).1 rfl
  · intro x hx
    simp only [List.map_append, List.map_cons, List.map_nil, List.mem_append,
      List.mem_singleton] at hx
    rcases hx with hk | rfl
    · exact h.keyC x hk
    · exact h.keyI x ho
  · intro x hx
    exact h.keyI x (herase_sub x hx)
  · exact h.keyF
  · exact h.dvdA
  · exact h.dvdN
  · exact h.aLeN
  · exact le_trans (List.Sublist.length_le (List.erase_sublist o s.inFlight)) h.lenI
  · show s.totalFetched + bch.features.length =
      s.allFeatures.length +
        ((s.completed ++ [(o, bch)]).map (fun p => p.2.features.length)).sum
    rw [List.map_append, List.sum_append]
    simp only [List.map_cons, List.map_nil, List.sum_cons, List.sum_nil]
    have := h.tfEq
    omega
  · intro x
    simp only [List.map_append, List.map_cons, List.map_nil, List.mem_append,
      List.mem_singleton]
    have hc := h.settledChar x
    constructor
    · rintro (hs | rfl)
      · rcases hc.mp hs with hk | hf | ha
        · exact Or.inl (Or.inl hk)
        · exact Or.inr (Or.inl hf)
        · exact Or.inr (Or.inr ha)
      · exact Or.inl (Or.inr rfl)
    · rintro ((hk | rfl) | hf | ha)
      · exact Or.inl (hc.mpr (Or.inl hk))
      · exact Or.inr rfl
      · exact Or.inl (hc.mpr (Or.inr (Or.inl hf)))
      · exact Or.inl (hc.mpr (Or.inr (Or.inr ha)))
  · intro x
    rw [List.mem_append, List.mem_singleton]
    have hd := h.dispatchedChar x
    constructor
    · intro hx
      rcases hd.mp hx with hi | hs
      · by_cases hxo : x = o
        · exact Or.inr (Or.inr hxo)
        · exact Or.inl ((herase_iff x).mpr ⟨hxo, hi⟩)
      · exact Or.inr (Or.inl hs)
    · rintro (hi | hs | rfl)
      · exact hd.mpr (Or.inl (herase_sub x hi))
      · exact hd.mpr (Or.inr hs)
      · exact hd.mpr (Or.inl ho)
  · exact h.reportsOk
  · exact h.reportsMono

/-- The invariant survives a failed settlement of an in-flight offset
(stated on the explicit record the `.catch` continuation produces). -/
theorem ginv_settle_fail {b mc : Nat} {s : SchedState α} (h : GInv b mc s)
    {o : Nat} (ho : o ∈ s.inFlight) :
    GInv b mc
      { s with
        failed := s.failed ++ [o]
        inFlight := s.inFlight.erase o
        settled := s.settled ++ [o] } := by
  have hoS : o ∉ s.settled := fun hs => h.disjSI o hs ho
  have hoF : o ∉ s.failed := h.disjIF o ho
  have herase_sub : ∀ x, x ∈ s.inFlight.erase o → x ∈ s.inFlight :=
    fun x hx => List.mem_of_mem_erase hx
  have herase_iff : ∀ x, x ∈ s.inFlight.erase o ↔ (x ≠ o ∧ x ∈ s.inFlight) :=
    fun x => List.Nodup.mem_erase_iff h.nodupI
  constructor
  · exact h.nodupC
  · exact h.nodupI.erase o
  · rw [List.nodup_append]
    exact ⟨h.nodupF, List.nodup_singleton o, fun x hx hx2 => by
      simp only [List.mem_singleton] at hx2
      exact hoF (hx2 ▸ hx)⟩
  · rw [List.nodup_append]
    exact ⟨h.nodupS, List.nodup_singleton o, fun x hx hx2 => by
      simp only [List.mem_singleton] at hx2
      exact hoS (hx2 ▸ hx)⟩
  · intro x hx hxe
    exact h.disjCI x hx (herase_sub x hxe)
  · intro x hx
    rw [List.mem_append, List.mem_singleton]
    rintro (hf | rfl)
    · exact h.disjCF x hx hf
    · exact h.disjCI x hx ho
  · intro x hx
    rw [List.mem_append, List.mem_singleton]
    rintro (hf | rfl)
    · exact h.disjIF x (herase_sub x hx) hf
    · exact ((herase_iff x).mp hx).1 rfl
  · intro x hx
    rw [List.mem_append, List.mem_singleton] at hx
    intro hxe
    rcases hx with hs | rfl
    · exact h.disjSI x hs (herase_sub x hxe)
    · exact ((herase_iff x).mp hxe).1 rfl
  · exact h.keyC
  · intro x hx
    exact h.keyI x (herase_sub x hx)
  · intro x hx
    rw [List.mem_append, List.mem_singleton] at hx
    rcases hx with hf | rfl
    · exact h.keyF x hf
    · exact h.keyI x ho
  · exact h.dvdA
  · exact h.dvdN
  · exact h.aLeN
  · exact le_trans (List.Sublist.length_le (List.erase_sublist o s.inFlight)) h.lenI
  · exact h.tfEq
  · intro x
    simp only [List.mem_append, List.mem_singleton]
    have hc := h.settledChar x
    constructor
    · rintro (hs | rfl)
      · rcases hc.mp hs with hk | hf | ha
        · exact Or.inl hk
        · exact Or.inr (Or.inl (Or.inl hf))
        · exact Or.inr (Or.inr ha)
      · exact Or.inr (Or.inl (Or.inr rfl))
    · rintro (hk | (hf | rfl) | ha)
      · exact Or.inl (hc.mpr (Or.inl hk))
      · exact Or.inl (hc.mpr (Or.inr (Or.inl hf)))
      · exact Or.inr rfl
      · exact Or.inl (hc.mpr (Or.inr (Or.inr ha)))
  · intro x
    rw [List.mem_append, List.mem_singleton]
    have hd := h.dispatchedChar x
    constructor
    · intro hx
      rcases hd.mp hx with hi | hs
      · by_cases hxo : x = o
        · exact Or.inr (Or.inr hxo)
        · exact Or.inl ((herase_iff x).mpr ⟨hxo, hi⟩)
      · exact Or.inr (Or.inl hs)
    · rintro (hi | hs | rfl)
      · exact hd.mpr (Or.inl (herase_sub x hi))
      · exact hd.mpr (Or.inr hs)
      · exact hd.mpr (Or.inl ho)
  · exact h.reportsOk
  · exact h.reportsMono

/-- The settle phase preserves the invariant. -/
theorem ginv_settlePhase {b mc : Nat} {s : SchedState α}
    (src : Nat → Option (Batch α)) (prio : Nat → Nat) (h : GInv b mc s) :
    GInv b mc (settlePhase src prio s) := by
  unfold settlePhase
  cases hp : pickMin prio s.inFlight with
  | none => exact h
  | some o =>
    have ho := pickMin_mem hp
    show GInv b mc (settleAt src o s)
    unfold settleAt
    cases hs : src o with
    | some bch => exact ginv_settle_success h ho bch
    | none => exact ginv_settle_fail h ho

/-- The invariant survives one pass of the aggregation body (stated on the
explicit record that pass produces). -/
theorem ginv_agg_step {b mc : Nat} {s : SchedState α} (hb : 0 < b)
    (h : GInv b mc s) {bch : Batch α}
    (hl : lookupCompleted s.nextAggregateOffset s.completed = some bch) :
    GInv b mc
      { s with
        completed := s.completed.filter (fun p => p.1 ≠ s.nextAggregateOffset)
        allFeatures := s.allFeatures ++ bch.features
        hasMore := s.hasMore && bch.exceededTransferLimit
        nextAggregateOffset := s.nextAggregateOffset + b } := by
  obtain ⟨p, hp, hp1, hp2⟩ := lookupCompleted_mem hl
  have hkK : s.nextAggregateOffset ∈ s.completed.map Prod.fst :=
    List.mem_map.mpr ⟨p, hp, hp1⟩
  constructor
  · exact List.Nodup.sublist (List.Sublist.map Prod.fst (List.filter_sublist _)) h.nodupC
  · exact h.nodupI
  · exact h.nodupF
  · exact h.nodupS
  · intro x hx
    exact h.disjCI x (keys_filter_mem.mp hx).1
  · intro x hx
    exact h.disjCF x (keys_filter_mem.mp hx).1
  · exact h.disjIF
  · exact h.disjSI
  · intro x hx
    obtain ⟨hxk, hxne⟩ := keys_filter_mem.mp hx
    obtain ⟨hd, hle, hlt⟩ := h.keyC x hxk
    refine ⟨hd, ?_, hlt⟩
    exact next_multiple_le hb hd h.dvdA (by omega)
  · intro x hx
    obtain ⟨hd, hle, hlt⟩ := h.keyI x hx
    have hxne : x ≠ s.nextAggregateOffset := by
      intro heq
      exact h.disjCI _ hkK (heq ▸ hx)
    refine ⟨hd, ?_, hlt⟩
    exact next_multiple_le hb hd h.dvdA (by omega)
  · intro x hx
    obtain ⟨hd, hle, hlt⟩ := h.keyF x hx
    have hxne : x ≠ s.nextAggregateOffset := by
      intro heq
      exact h.disjCF _ hkK (heq ▸ hx)
    refine ⟨hd, ?_, hlt⟩
    exact next_multiple_le hb hd h.dvdA (by omega)
  · exact Dvd.dvd.add h.dvdA dvd_rfl
  · exact h.dvdN
  · have hlt := (h.keyC _ hkK).2.2
    exact next_multiple_le hb h.dvdN h.dvdA hlt
  · exact h.lenI
  · show s.totalFetched = (s.allFeatures ++ bch.features).length +
      ((s.completed.filter (fun p => p.1 ≠ s.nextAggregateOffset)).map
        (fun p => p.2.features.length)).sum
    have hsum := sum_filter_lookup (fun p => p.2.features.length) h.nodupC hl
    have := h.tfEq
    rw [List.length_append]
    simp only at hsum
    omega
  · intro x
    show x ∈ s.settled ↔
      (x ∈ (s.completed.filter (fun p => p.1 ≠ s.nextAggregateOffset)).map Prod.fst ∨
        x ∈ s.failed ∨ (b ∣ x ∧ x < s.nextAggregateOffset + b))
    have hc := h.settledChar x
    constructor
    · intro hs
      rcases hc.mp hs with hk | hf | ⟨hd, hlt⟩
      · by_cases hxk : x = s.nextAggregateOffset
        · subst hxk
          exact Or.inr (Or.inr ⟨h.dvdA, by omega⟩)
        · exact Or.inl (keys_filter_mem.mpr ⟨hk, hxk⟩)
      · exact Or.inr (Or.inl hf)
      · exact Or.inr (Or.inr ⟨hd, by omega⟩)
    · rintro (hk | hf | ⟨hd, hlt⟩)
      · exact hc.mpr (Or.inl (keys_filter_mem.mp hk).1)
      · exact hc.mpr (Or.inr (Or.inl hf))
      · by_cases hxk : x < s.nextAggregateOffset
        · exact hc.mpr (Or.inr (Or.inr ⟨hd, hxk⟩))
        · have hxeq : x = s.nextAggregateOffset := by
            rcases Nat.lt_or_ge s.nextAggregateOffset x with hgt | hge
            · have := next_multiple_le hb hd h.dvdA hgt
              omega
            · omega
          exact hc.mpr (Or.inl (hxeq ▸ hkK))
  · exact h.dispatchedChar
  · intro r hr
    obtain ⟨hpos, hle, hltf, hest⟩ := h.reportsOk r hr
    refine ⟨hpos, ?_, hltf, hest⟩
    rw [List.length_append]
    omega
  · exact h.reportsMono

/-- The aggregation loop preserves the invariant. -/
theorem ginv_aggregateN {b mc : Nat} (hb : 0 < b) :
    ∀ (n : Nat) (s : SchedState α), GInv b mc s → GInv b mc (aggregateN b n s)
  | 0, s, h => h
  | n + 1, s, h => by
    simp only [aggregateN]
    cases hl : lookupCompleted s.nextAggregateOffset s.completed with
    | none => exact h
    | some bch => exact ginv_aggregateN hb n _ (ginv_agg_step hb h hl)

/-- The report phase preserves the invariant. -/
theorem ginv_reportPhase {b mc : Nat} {s : SchedState α} (h : GInv b mc s) :
    GInv b mc (reportPhase s) := by
  unfold reportPhase
  by_cases hl : s.allFeatures.length > 0
  · rw [if_pos hl]
    constructor
    · exact h.nodupC
    · exact h.nodupI
    · exact h.nodupF
    · exact h.nodupS
    · exact h.disjCI
    · exact h.disjCF
    · exact h.disjIF
    · exact h.disjSI
    · exact h.keyC
    · exact h.keyI
    · exact h.keyF
    · exact h.dvdA
    · exact h.dvdN
    · exact h.aLeN
    · exact h.lenI
    · exact h.tfEq
    · exact h.settledChar
    · exact h.dispatchedChar
    · intro r hr
      rw [List.mem_append, List.mem_singleton] at hr
      rcases hr with hold | rfl
      · exact h.reportsOk r hold
      · refine ⟨hl, le_rfl, ?_, rfl⟩
        show s.allFeatures.length ≤ s.totalFetched
        have := h.tfEq
        omega
    · rw [List.pairwise_append]
      refine ⟨h.reportsMono, List.pairwise_singleton _ _, ?_⟩
      intro r hr r2 hr2
      rw [List.mem_singleton] at hr2
      subst hr2
      exact (h.reportsOk r hr).2.1
  · rw [if_neg hl]
    exact h

/-- Updating the ghost iteration counter preserves the invariant. -/
theorem ginv_set_iters {b mc : Nat} {s : SchedState α} (h : GInv b mc s) (n : Nat) :
    GInv b mc { s with iters := n } :=
  ⟨h.nodupC, h.nodupI, h.nodupF, h.nodupS, h.disjCI, h.disjCF, h.disjIF, h.disjSI,
    h.keyC, h.keyI, h.keyF, h.dvdA, h.dvdN, h.aLeN, h.lenI, h.tfEq, h.settledChar,
    h.dispatchedChar, h.reportsOk, h.reportsMono⟩

/-- One full scheduler-loop iteration preserves the invariant. -/
theorem ginv_iter {b mc : Nat} {s : SchedState α} (hb : 0 < b)
    (src : Nat → Option (Batch α)) (prio : Nat → Nat) (h : GInv b mc s) :
    GInv b mc (iter b mc src prio s) := by
  unfold iter
  exact ginv_set_iters (ginv_reportPhase (ginv_aggregateN hb _ _
    (ginv_settlePhase src prio (ginv_dispatchLoop hb h)))) _

/-- The invariant holds at the start of every scheduler-loop iteration of a
run from the constructor state. -/
theorem ginv_iterate (b mc : Nat) (hb : 0 < b) (src : Nat → Option (Batch α))
    (prio : Nat → Nat) :
    ∀ k : Nat, GInv b mc ((iter b mc src prio)^[k] (initState α))
  | 0 => ginv_init α b mc
  | k + 1 => by
    rw [Function.iterate_succ_apply']
    exact ginv_iter hb src prio (ginv_iterate b mc hb src prio k)

/-- A run that returns reaches a state satisfying the invariant. -/
theorem ginv_run {b mc : Nat} (hb : 0 < b) (src : Nat → Option (Batch α))
    (prio : Nat → Nat) :
    ∀ (fuel : Nat) (s t : SchedState α), GInv b mc s →
      run b mc src prio fuel s = some t → GInv b mc t
  | fuel, s, t, h, hr => by
    unfold run at hr
    by_cases hc : loopCond s = true
    · rw [if_pos hc] at hr
      match fuel, hr with
      | fuel + 1, hr => exact ginv_run hb src prio fuel _ t (ginv_iter hb src prio h) hr
    · rw [if_neg hc] at hr
      injection hr with hr
      exact hr ▸ h

/-! ### Run-level facts -/

/-- A run that returns does so with the loop guard false. -/
theorem run_exit {b mc : Nat} {src : Nat → Option (Batch α)} {prio : Nat → Nat} :
    ∀ {fuel : Nat} {s t : SchedState α},
      run b mc src prio fuel s = some t → loopCond t = false
  | fuel, s, t, hr => by
    unfold run at hr
    by_cases hc : loopCond s = true
    · rw [if_pos hc] at hr
      match fuel, hr with
      | fuel + 1, hr => exact run_exit hr
    · rw [if_neg hc] at hr
      injection hr with hr
      subst hr
      simpa using hc

/-- The state a run returns is an iterate of the loop body. -/
theorem run_eq_iterate {b mc : Nat} {src : Nat → Option (Batch α)} {prio : Nat → Nat} :
    ∀ {fuel : Nat} {s t : SchedState α},
      run b mc src prio fuel s = some t →
      ∃ j : Nat, j ≤ fuel ∧ t = (iter b mc src prio)^[j] s
  | fuel, s, t, hr => by
    unfold run at hr
    by_cases hc : loopCond s = true
    · rw [if_pos hc] at hr
      match fuel, hr with
      | fuel + 1, hr =>
        obtain ⟨j, hj, ht⟩ := run_eq_iterate hr
        exact ⟨j + 1, by omega, by rw [ht, Function.iterate_succ_apply]⟩
    · rw [if_neg hc] at hr
      injection hr with hr
      exact ⟨0, Nat.zero_le _, hr.symm⟩

/-- `aggregateLoop` versions of the `aggregateN` field lemmas. -/
theorem aggregateLoop_unchanged (b : Nat) (s : SchedState α) :
    (aggregateLoop b s).inFlight = s.inFlight ∧
    (aggregateLoop b s).failed = s.failed ∧
    (aggregateLoop b s).settled = s.settled ∧
    (aggregateLoop b s).nextFetchOffset = s.nextFetchOffset ∧
    (aggregateLoop b s).reports = s.reports ∧
    (aggregateLoop b s).totalFetched = s.totalFetched ∧
    (aggregateLoop b s).iters = s.iters :=
  aggregateN_unchanged b s.completed.length s

/-- `dispatchLoop` versions of the `dispatchN` field lemmas. -/
theorem dispatchLoop_unchanged (b mc : Nat) (s : SchedState α) :
    (dispatchLoop b mc s).completed = s.completed ∧
    (dispatchLoop b mc s).failed = s.failed ∧
    (dispatchLoop b mc s).settled = s.settled ∧
    (dispatchLoop b mc s).hasMore = s.hasMore ∧
    (dispatchLoop b mc s).nextAggregateOffset = s.nextAggregateOffset ∧
    (dispatchLoop b mc s).allFeatures = s.allFeatures ∧
    (dispatchLoop b mc s).reports = s.reports ∧
    (dispatchLoop b mc s).totalFetched = s.totalFetched ∧
    (dispatchLoop b mc s).iters = s.iters :=
  dispatchN_unchanged b mc (mc - s.inFlight.length) s

/-- The scheduler-loop body, written without its trailing ghost-counter
update: `iter` is this state followed by bumping `iters`. -/
theorem iter_eq (b mc : Nat) (src : Nat → Option (Batch α)) (prio : Nat → Nat)
    (s : SchedState α) :
    iter b mc src prio s =
      { reportPhase (aggregateLoop b (settlePhase src prio (dispatchLoop b mc s))) with
        iters := s.iters + 1 } := rfl

/-- Once the loop guard is false, an iteration dispatches nothing:
`nextFetchOffset` does not move and `inFlight` gains nothing. -/
theorem iter_no_dispatch_of_not_hasMore {b mc : Nat} {src : Nat → Option (Batch α)}
    {prio : Nat → Nat} {s : SchedState α} (hm : s.hasMore = false) :
    (iter b mc src prio s).nextFetchOffset = s.nextFetchOffset := by
  have hd : dispatchLoop b mc s = s := by
    unfold dispatchLoop
    cases hn : mc - s.inFlight.length with
    | zero => rfl
    | succ n =>
      simp only [dispatchN]
      rw [if_neg (by rintro ⟨h1, h2⟩; rw [hm] at h1; cases h1)]
  rw [iter_eq]
  show (reportPhase (aggregateLoop b (settlePhase src prio (dispatchLoop b mc s)))).nextFetchOffset
    = s.nextFetchOffset
  rw [(reportPhase_unchanged _).2.2.2.2.1, (aggregateLoop_unchanged b _).2.2.2.1,
    (settlePhase_unchanged src prio _).1, hd]

/-- `failed` only ever grows across an iteration. -/
theorem failed_subset_iter (b mc : Nat) (src : Nat → Option (Batch α))
    (prio : Nat → Nat) (s : SchedState α) :
    s.failed ⊆ (iter b mc src prio s).failed := by
  intro x hx
  rw [iter_eq]
  show x ∈ (reportPhase (aggregateLoop b (settlePhase src prio (dispatchLoop b mc s)))).failed
  rw [(reportPhase_unchanged _).2.2.1, (aggregateLoop_unchanged b _).2.1]
  have hdf : (dispatchLoop b mc s).failed = s.failed := (dispatchLoop_unchanged b mc s).2.1
  unfold settlePhase
  cases hp : pickMin prio (dispatchLoop b mc s).inFlight with
  | none =>
    show x ∈ (dispatchLoop b mc s).failed
    rw [hdf]
    exact hx
  | some o =>
    show x ∈ (settleAt src o (dispatchLoop b mc s)).failed
    unfold settleAt
    cases hs : src o with
    | some bch =>
      show x ∈ (dispatchLoop b mc s).failed
      rw [hdf]
      exact hx
    | none =>
      show x ∈ (dispatchLoop b mc s).failed ++ [o]
      rw [hdf]
      exact List.mem_append_left _ hx

/-- The concurrency window is respected by a single dispatch pass from any
state within the bound, whatever the fuel. -/
theorem dispatchN_le_mc (b mc : Nat) :
    ∀ (n : Nat) (s : SchedState α), s.inFlight.length ≤ mc →
      (dispatchN b mc n s).inFlight.length ≤ mc
  | 0, s, h => h
  | n + 1, s, h => by
    simp only [dispatchN]
    by_cases hc : s.hasMore ∧ s.inFlight.length < mc
    · rw [if_pos hc]
      refine dispatchN_le_mc b mc n _ ?_
      show (s.inFlight ++ [s.nextFetchOffset]).length ≤ mc
      rw [List.length_append]
      simp only [List.length_cons, List.length_nil]
      omega
    · rw [if_neg hc]
      exact h

/-- The concurrency window is respected across a full iteration. -/
theorem inflight_le_iter (b mc : Nat) (src : Nat → Option (Batch α))
    (prio : Nat → Nat) (s : SchedState α) (h : s.inFlight.length ≤ mc) :
    (iter b mc src prio s).inFlight.length ≤ mc := by
  unfold iter
  show (reportPhase (aggregateN b _ (settlePhase src prio (dispatchLoop b mc s)))).inFlight.length ≤ mc
  rw [(reportPhase_unchanged _).2.1, (aggregateN_unchanged b _ _).1]
  have hd : (dispatchLoop b mc s).inFlight.length ≤ mc := dispatchN_le_mc b mc _ s h
  unfold settlePhase
  cases hp : pickMin prio (dispatchLoop b mc s).inFlight with
  | none => exact hd
  | some o =>
    show (settleAt src o (dispatchLoop b mc s)).inFlight.length ≤ mc
    unfold settleAt
    cases hs : src o with
    | some bch =>
      show ((dispatchLoop b mc s).inFlight.erase o).length ≤ mc
      exact le_trans (List.Sublist.length_le (List.erase_sublist _ _)) hd
    | none =>
      show ((dispatchLoop b mc s).inFlight.erase o).length ≤ mc
      exact le_trans (List.Sublist.length_le (List.erase_sublist _ _)) hd

/-- The concurrency window is respected at the start of every scheduler-loop
iteration. -/
theorem inflight_le_iterate (b mc : Nat) (src : Nat → Option (Batch α))
    (prio : Nat → Nat) :
    ∀ k : Nat, ((iter b mc src prio)^[k] (initState α)).inFlight.length ≤ mc
  | 0 => by simp [initState]
  | k + 1 => by
    rw [Function.iterate_succ_apply']
    exact inflight_le_iter b mc src prio _ (inflight_le_iterate b mc src prio k)

/-- The progress callback fires exactly once in an iteration that ends with
a non-empty aggregate output, and not at all otherwise. -/
theorem reports_step_iter (b mc : Nat) (src : Nat → Option (Batch α))
    (prio : Nat → Nat) (s : SchedState α) :
    (iter b mc src prio s).reports.length =
      s.reports.length +
        (if 0 < (iter b mc src prio s).allFeatures.length then 1 else 0) := by
  rw [iter_eq]
  have hpre : (aggregateLoop b (settlePhase src prio (dispatchLoop b mc s))).reports
      = s.reports := by
    rw [(aggregateLoop_unchanged b _).2.2.2.2.1, (settlePhase_unchanged src prio _).2.2.2.2.1,
      (dispatchLoop_unchanged b mc s).2.2.2.2.2.2.1]
  show (reportPhase (aggregateLoop b (settlePhase src prio (dispatchLoop b mc s)))).reports.length =
    s.reports.length +
      (if 0 < (reportPhase (aggregateLoop b (settlePhase src prio (dispatchLoop b mc s)))).allFeatures.length
        then 1 else 0)
  rw [(reportPhase_unchanged _).2.2.2.2.2.2.2.2]
  unfold reportPhase
  by_cases hl : (aggregateLoop b (settlePhase src prio (dispatchLoop b mc s))).allFeatures.length > 0
  · rw [if_pos hl, if_pos hl]
    simp [hpre]
  · rw [if_neg hl, if_neg hl]
    simp [hpre]

/-! ### Completed entries always come from the source -/

/-- Every buffered page in `completed` is the settled result of
`fetchBatch` at its offset. -/
def Faithful (src : Nat → Option (Batch α)) (s : SchedState α) : Prop :=
  ∀ p ∈ s.completed, src p.1 = some p.2

/-- `aggregateLoop` version of `aggregateN_completed_sub`. -/
theorem aggregateLoop_completed_sub (b : Nat) (s : SchedState α) (p : Nat × Batch α)
    (hp : p ∈ (aggregateLoop b s).completed) : p ∈ s.completed :=
  aggregateN_completed_sub b s.completed.length s p hp

/-- Settling preserves faithfulness of `completed` to the source. -/
theorem faithful_settle {src : Nat → Option (Batch α)} {prio : Nat → Nat}
    {s : SchedState α} (h : Faithful src s) : Faithful src (settlePhase src prio s) := by
  unfold settlePhase
  cases hp : pickMin prio s.inFlight with
  | none => exact h
  | some o =>
    show Faithful src (settleAt src o s)
    unfold settleAt
    cases hs : src o with
    | some bch =>
      intro p hp2
      show src p.1 = some p.2
      have hp3 : p ∈ s.completed ++ [(o, bch)] := hp2
      rw [List.mem_append, List.mem_singleton] at hp3
      rcases hp3 with hold | rfl
      · exact h p hold
      · exact hs
    | none => exact h

/-- A full scheduler iteration preserves faithfulness of `completed`. -/
theorem faithful_iter {src : Nat → Option (Batch α)} (b mc : Nat) (prio : Nat → Nat)
    {s : SchedState α} (h : Faithful src s) : Faithful src (iter b mc src prio s) := by
  rw [iter_eq]
  intro p hp
  show src p.1 = some p.2
  have hp2 : p ∈ (reportPhase (aggregateLoop b (settlePhase src prio (dispatchLoop b mc s)))).completed := hp
  rw [(reportPhase_unchanged _).1] at hp2
  have hp3 := aggregateLoop_completed_sub b _ p hp2
  have hdc : (dispatchLoop b mc s).completed = s.completed := (dispatchLoop_unchanged b mc s).1
  have hfd : Faithful src (dispatchLoop b mc s) := by
    intro q hq
    rw [hdc] at hq
    exact h q hq
  exact faithful_settle hfd p hp3

/-! ### The failed-hole scenario never terminates -/

/-- The failed-hole scenario of the specification: page 0 succeeds with
more data signalled, the fetch at offset 2000 rejects (all retries
exhausted), the page at offset 4000 succeeds as the final page, and all
later offsets return empty pages. -/
def srcHole : Nat → Option (Batch Nat) := fun o =>
  if o = 0 then some ⟨[1, 2, 3], true⟩
  else if o = 2000 then none
  else if o = 4000 then some ⟨[4, 5], false⟩
  else some ⟨[], false⟩

/-- The induction invariant of the failed-hole scenario: `hasMore` is stuck
at `true` because aggregation can never pass the failed offset 2000. -/
def StuckInv (s : SchedState Nat) : Prop :=
  s.hasMore = true ∧
  (s.nextAggregateOffset = 0 ∨ s.nextAggregateOffset = 2000) ∧
  Faithful srcHole s

/-- Aggregation cannot clear `hasMore` in the failed-hole scenario: the only
aggregatable page below the hole is page 0, whose flag is `true`. -/
theorem stuck_agg : ∀ (n : Nat) (s : SchedState Nat), StuckInv s →
    StuckInv (aggregateN 2000 n s)
  | 0, s, h => h
  | n + 1, s, h => by
    obtain ⟨hm, hna, hf⟩ := h
    simp only [aggregateN]
    cases hl : lookupCompleted s.nextAggregateOffset s.completed with
    | none => exact ⟨hm, hna, hf⟩
    | some bch =>
      obtain ⟨p, hp, hp1, hp2⟩ := lookupCompleted_mem hl
      have hsrc := hf p hp
      rw [hp1, hp2] at hsrc
      rcases hna with h0 | h2000
      · rw [h0] at hsrc
        have hval : srcHole 0 = some ⟨[1, 2, 3], true⟩ := rfl
        rw [hval] at hsrc
        injection hsrc with hsrc
        have hbch : bch = ⟨[1, 2, 3], true⟩ := hsrc.symm
        refine stuck_agg n _ ⟨?_, ?_, ?_⟩
        · show (s.hasMore && bch.exceededTransferLimit) = true
          rw [hm, hbch]
          rfl
        · show s.nextAggregateOffset + 2000 = 0 ∨ s.nextAggregateOffset + 2000 = 2000
          rw [h0]
          exact Or.inr rfl
        · intro q hq
          have hq2 : q ∈ s.completed :=
            (List.mem_filter.mp hq).1
          exact hf q hq2
      · rw [h2000] at hsrc
        have hval : srcHole 2000 = none := rfl
        rw [hval] at hsrc
        cases hsrc

/-- One scheduler iteration preserves the failed-hole invariant. -/
theorem stuck_iter (prio : Nat → Nat) {s : SchedState Nat} (h : StuckInv s) :
    StuckInv (iter 2000 4 srcHole prio s) := by
  rw [iter_eq]
  obtain ⟨hm, hna, hf⟩ := h
  have hd : StuckInv (dispatchLoop 2000 4 s) := by
    refine ⟨?_, ?_, ?_⟩
    · rw [(dispatchLoop_unchanged 2000 4 s).2.2.2.1]
      exact hm
    · rw [(dispatchLoop_unchanged 2000 4 s).2.2.2.2.1]
      exact hna
    · intro q hq
      rw [(dispatchLoop_unchanged 2000 4 s).1] at hq
      exact hf q hq
  have hs : StuckInv (settlePhase srcHole prio (dispatchLoop 2000 4 s)) := by
    obtain ⟨hm2, hna2, hf2⟩ := hd
    refine ⟨?_, ?_, faithful_settle hf2⟩
    · rw [(settlePhase_unchanged srcHole prio _).2.2.1]
      exact hm2
    · rw [(settlePhase_unchanged srcHole prio _).2.1]
      exact hna2
  have ha : StuckInv (aggregateLoop 2000 (settlePhase srcHole prio (dispatchLoop 2000 4 s))) :=
    stuck_agg _ _ hs
  obtain ⟨hm3, hna3, hf3⟩ := ha
  refine ⟨?_, ?_, ?_⟩
  · show (reportPhase _).hasMore = true
    rw [(reportPhase_unchanged _).2.2.2.2.2.2.1]
    exact hm3
  · show (reportPhase _).nextAggregateOffset = 0 ∨ (reportPhase _).nextAggregateOffset = 2000
    rw [(reportPhase_unchanged _).2.2.2.2.2.1]
    exact hna3
  · intro q hq
    have hq2 : q ∈ (reportPhase (aggregateLoop 2000 (settlePhase srcHole prio (dispatchLoop 2000 4 s)))).completed := hq
    rw [(reportPhase_unchanged _).1] at hq2
    exact hf3 q hq2

/-- In the failed-hole scenario the scheduler loop never exits, whatever
the completion order and however much fuel it is given. -/
theorem stuck_run_none (prio : Nat → Nat) :
    ∀ (fuel : Nat) (s : SchedState Nat), StuckInv s →
      run 2000 4 srcHole prio fuel s = none
  | fuel, s, h => by
    have hc : loopCond s = true := by
      unfold loopCond
      rw [h.1]
      rfl
    unfold run
    rw [if_pos hc]
    match fuel with
    | 0 => rfl
    | fuel + 1 => exact stuck_run_none prio fuel _ (stuck_iter prio h)

/-- The failed-hole invariant holds at the start. -/
theorem stuck_init : StuckInv (initState Nat) := by
  refine ⟨rfl, Or.inl rfl, ?_⟩
  intro p hp
  simp [initState] at hp

/-! ### Finite all-success sources and the order invariant -/

/-- The records of page `i` of a finite paginated source (empty beyond the
end). -/
def pageAt (pages : List (List α)) (i : Nat) : List α :=
  (pages[i]?).getD []

/-- The batch `fetchBatch` eventually produces for page `i` of a finite
source of `pages.length` pages: the page's records, with the
`exceededTransferLimit` flag set exactly below the last page (the last page
has fewer than `batchSize` records and no source flag, pages beyond the end
are empty with a false flag). -/
def finiteBatch (pages : List (List α)) (i : Nat) : Batch α :=
  ⟨pageAt pages i, decide (i + 1 < pages.length)⟩

/-- `src` is the settled-outcome function of a finite source of
`pages.length` pages in which every fetch succeeds: page `i` lives at
offset `i * b`. -/
def FiniteSrc (b : Nat) (pages : List (List α)) (src : Nat → Option (Batch α)) : Prop :=
  ∀ i : Nat, src (i * b) = some (finiteBatch pages i)

/-- The concatenation of the first `n` pages in ascending page order. -/
def aggConcat (pages : List (List α)) : Nat → List α
  | 0 => []
  | n + 1 => aggConcat pages n ++ pageAt pages n

/-- `aggConcat` is the flattening of a prefix of the page list. -/
theorem aggConcat_eq_take_flatten (pages : List (List α)) :
    ∀ n : Nat, aggConcat pages n = (pages.take n).flatten
  | 0 => by simp [aggConcat]
  | n + 1 => by
    simp only [aggConcat, aggConcat_eq_take_flatten pages n]
    rw [List.take_succ, List.flatten_append]
    congr 1
    cases hg : pages[n]? with
    | none => simp [pageAt, hg]
    | some l => simp [pageAt, hg]

/-- Once all pages are aggregated, further (empty) aggregation steps do not
change the output. -/
theorem aggConcat_stable (pages : List (List α)) :
    ∀ m : Nat, pages.length ≤ m → aggConcat pages m = pages.flatten := by
  intro m hm
  rw [aggConcat_eq_take_flatten, List.take_of_length_le hm]

/-- Every partial aggregate is a prefix of the full ordered output. -/
theorem aggConcat_initial (pages : List (List α)) (n : Nat) :
    aggConcat pages n ++ (pages.drop n).flatten = pages.flatten := by
  rw [aggConcat_eq_take_flatten, ← List.flatten_append, List.take_append_drop]

/-- The run invariant specific to a finite all-success source: no offset
ever fails, `hasMore` is true exactly while pages remain to aggregate, and
the output is exactly the pages aggregated so far, in ascending page
order. -/
structure SInv (b : Nat) (pages : List (List α)) (s : SchedState α) : Prop where
  failedNil : s.failed = []
  hasMoreIff : s.hasMore = true ↔ s.nextAggregateOffset < pages.length * b
  allF : s.allFeatures = aggConcat pages (s.nextAggregateOffset / b)

/-- The three-part induction invariant for finite all-success runs. -/
def FullInv (b mc : Nat) (pages : List (List α)) (src : Nat → Option (Batch α))
    (s : SchedState α) : Prop :=
  GInv b mc s ∧ Faithful src s ∧ SInv b pages s

/-- The full invariant holds initially (for a nonempty finite source). -/
theorem fullinv_init {b mc : Nat} {pages : List (List α)}
    {src : Nat → Option (Batch α)} (hb : 0 < b) (hN : 0 < pages.length) :
    FullInv b mc pages src (initState α) := by
  refine ⟨ginv_init α b mc, ?_, ?_, ?_, ?_⟩
  · intro p hp
    simp [initState] at hp
  · rfl
  · show (true = true) ↔ (0 < pages.length * b)
    simp [Nat.mul_pos hN hb]
  · show ([] : List α) = aggConcat pages (0 / b)
    rw [Nat.zero_div]
    rfl

/-- The dispatch loop preserves the finite-source invariant. -/
theorem sinv_dispatchLoop {b mc : Nat} {pages : List (List α)}
    {s : SchedState α} (h : SInv b pages s) :
    SInv b pages (dispatchLoop b mc s) := by
  obtain ⟨h1, h2, h3⟩ := h
  refine ⟨?_, ?_, ?_⟩
  · rw [(dispatchLoop_unchanged b mc s).2.1]
    exact h1
  · rw [(dispatchLoop_unchanged b mc s).2.2.2.1, (dispatchLoop_unchanged b mc s).2.2.2.2.1]
    exact h2
  · rw [(dispatchLoop_unchanged b mc s).2.2.2.2.2.1, (dispatchLoop_unchanged b mc s).2.2.2.2.1]
    exact h3

/-- With a finite all-success source, every settlement succeeds: `failed`
stays empty and the settle phase only moves a batch into `completed`. -/
theorem sinv_settlePhase {b mc : Nat} {pages : List (List α)}
    {src : Nat → Option (Batch α)} {prio : Nat → Nat} {s : SchedState α}
    (hb : 0 < b) (hfin : FiniteSrc b pages src) (hg : GInv b mc s)
    (h : SInv b pages s) : SInv b pages (settlePhase src prio s) := by
  obtain ⟨h1, h2, h3⟩ := h
  unfold settlePhase
  cases hp : pickMin prio s.inFlight with
  | none => exact ⟨h1, h2, h3⟩
  | some o =>
    have ho := pickMin_mem hp
    have hdvd : b ∣ o := (hg.keyI o ho).1
    have hsome : src o = some (finiteBatch pages (o / b)) := by
      have := hfin (o / b)
      rwa [Nat.div_mul_cancel hdvd] at this
    show SInv b pages (settleAt src o s)
    unfold settleAt
    rw [hsome]
    exact ⟨h1, h2, h3⟩

/-- One aggregation pass preserves the finite-source invariant (together
with the generic invariant and faithfulness). -/
theorem sinv_agg_step {b mc : Nat} {pages : List (List α)}
    {src : Nat → Option (Batch α)} {s : SchedState α} (hb : 0 < b)
    (hfin : FiniteSrc b pages src) (hg : GInv b mc s) (hf : Faithful src s)
    (h : SInv b pages s) {bch : Batch α}
    (hl : lookupCompleted s.nextAggregateOffset s.completed = some bch) :
    SInv b pages
      { s with
        completed := s.completed.filter (fun p => p.1 ≠ s.nextAggregateOffset)
        allFeatures := s.allFeatures ++ bch.features
        hasMore := s.hasMore && bch.exceededTransferLimit
        nextAggregateOffset := s.nextAggregateOffset + b } := by
  obtain ⟨h1, h2, h3⟩ := h
  obtain ⟨p, hp, hp1, hp2⟩ := lookupCompleted_mem hl
  have hsrc : src s.nextAggregateOffset = some bch := by
    have := hf p hp
    rw [hp1, hp2] at this
    exact this
  have hbch : bch = finiteBatch pages (s.nextAggregateOffset / b) := by
    have hfb := hfin (s.nextAggregateOffset / b)
    rw [Nat.div_mul_cancel hg.dvdA] at hfb
    rw [hfb] at hsrc
    injection hsrc with hsrc
    exact hsrc.symm
  have hdivsucc : (s.nextAggregateOffset + b) / b = s.nextAggregateOffset / b + 1 :=
    Nat.add_div_right _ hb
  have hmul : s.nextAggregateOffset / b * b = s.nextAggregateOffset :=
    Nat.div_mul_cancel hg.dvdA
  have hexp : (s.nextAggregateOffset / b + 1) * b = s.nextAggregateOffset + b := by
    rw [Nat.add_mul, hmul, one_mul]
  have hkey : s.nextAggregateOffset + b < pages.length * b ↔
      s.nextAggregateOffset / b + 1 < pages.length := by
    rw [← hexp]
    exact mul_lt_mul_right hb
  refine ⟨h1, ?_, ?_⟩
  · show (s.hasMore && bch.exceededTransferLimit) = true ↔
      s.nextAggregateOffset + b < pages.length * b
    rw [Bool.and_eq_true, h2, hbch]
    show (s.nextAggregateOffset < pages.length * b ∧
        decide (s.nextAggregateOffset / b + 1 < pages.length) = true) ↔ _
    rw [decide_eq_true_eq, hkey]
    constructor
    · rintro ⟨_, hsucc⟩
      exact hsucc
    · intro hsucc
      refine ⟨?_, hsucc⟩
      have := hkey.mpr hsucc
      omega
  · show s.allFeatures ++ bch.features = aggConcat pages ((s.nextAggregateOffset + b) / b)
    rw [hdivsucc, h3, hbch]
    rfl

/-- The aggregation loop preserves the full finite-source invariant. -/
theorem fullinv_aggregateN {b mc : Nat} {pages : List (List α)}
    {src : Nat → Option (Batch α)} (hb : 0 < b) (hfin : FiniteSrc b pages src) :
    ∀ (n : Nat) (s : SchedState α), FullInv b mc pages src s →
      FullInv b mc pages src (aggregateN b n s)
  | 0, s, h => h
  | n + 1, s, h => by
    obtain ⟨hg, hf, hs⟩ := h
    simp only [aggregateN]
    cases hl : lookupCompleted s.nextAggregateOffset s.completed with
    | none => exact ⟨hg, hf, hs⟩
    | some bch =>
      refine fullinv_aggregateN hb hfin n _ ⟨ginv_agg_step hb hg hl, ?_, sinv_agg_step hb hfin hg hf hs hl⟩
      intro q hq
      exact hf q (List.mem_filter.mp hq).1

/-- One scheduler iteration preserves the full finite-source invariant. -/
theorem fullinv_iter {b mc : Nat} {pages : List (List α)}
    {src : Nat → Option (Batch α)} (prio : Nat → Nat) (hb : 0 < b)
    (hfin : FiniteSrc b pages src) {s : SchedState α}
    (h : FullInv b mc pages src s) : FullInv b mc pages src (iter b mc src prio s) := by
  obtain ⟨hg, hf, hs⟩ := h
  have hd : FullInv b mc pages src (dispatchLoop b mc s) := by
    refine ⟨ginv_dispatchLoop hb hg, ?_, sinv_dispatchLoop hs⟩
    intro q hq
    rw [(dispatchLoop_unchanged b mc s).1] at hq
    exact hf q hq
  have hst : FullInv b mc pages src (settlePhase src prio (dispatchLoop b mc s)) :=
    ⟨ginv_settlePhase src prio hd.1, faithful_settle hd.2.1,
      sinv_settlePhase hb hfin hd.1 hd.2.2⟩
  have hag : FullInv b mc pages src
      (aggregateLoop b (settlePhase src prio (dispatchLoop b mc s))) :=
    fullinv_aggregateN hb hfin _ _ hst
  have hrp : FullInv b mc pages src
      (reportPhase (aggregateLoop b (settlePhase src prio (dispatchLoop b mc s)))) := by
    obtain ⟨hg2, hf2, hs2⟩ := hag
    refine ⟨ginv_reportPhase hg2, ?_, ?_, ?_, ?_⟩
    · intro q hq
      rw [(reportPhase_unchanged _).1] at hq
      exact hf2 q hq
    · rw [(reportPhase_unchanged _).2.2.1]
      exact hs2.failedNil
    · rw [(reportPhase_unchanged _).2.2.2.2.2.2.1, (reportPhase_unchanged _).2.2.2.2.2.1]
      exact hs2.hasMoreIff
    · rw [(reportPhase_unchanged _).2.2.2.2.2.2.2.2, (reportPhase_unchanged _).2.2.2.2.2.1]
      exact hs2.allF
  rw [iter_eq]
  obtain ⟨hg3, hf3, hs3⟩ := hrp
  exact ⟨ginv_set_iters hg3 _, hf3, hs3.failedNil, hs3.hasMoreIff, hs3.allF⟩

/-- The full finite-source invariant holds at the start of every iteration
of a run over a nonempty finite all-success source. -/
theorem fullinv_iterate {b mc : Nat} {pages : List (List α)}
    {src : Nat → Option (Batch α)} (prio : Nat → Nat) (hb : 0 < b)
    (hN : 0 < pages.length) (hfin : FiniteSrc b pages src) :
    ∀ k : Nat, FullInv b mc pages src ((iter b mc src prio)^[k] (initState α))
  | 0 => fullinv_init hb hN
  | k + 1 => by
    rw [Function.iterate_succ_apply']
    exact fullinv_iter prio hb hfin (fullinv_iterate prio hb hN hfin k)

/-- An exiting run has cleared `hasMore` and drained `inFlight`. -/
theorem loopCond_false_elim {s : SchedState α} (h : loopCond s = false) :
    s.hasMore = false ∧ s.inFlight = [] := by
  unfold loopCond at h
  rw [Bool.or_eq_false_iff] at h
  refine ⟨h.1, ?_⟩
  have := h.2
  rw [Bool.not_eq_false'] at this
  exact List.isEmpty_iff.mp this

/-- Over a nonempty finite all-success source, a run that returns has
aggregated exactly the concatenation of all pages in ascending offset
order. -/
theorem finite_run_output {b mc fuel : Nat} {pages : List (List α)}
    {src : Nat → Option (Batch α)} {prio : Nat → Nat} {final : SchedState α}
    (hb : 0 < b) (hN : 0 < pages.length) (hfin : FiniteSrc b pages src)
    (hr : run b mc src prio fuel (initState α) = some final) :
    final.allFeatures = pages.flatten := by
  have hexit := run_exit hr
  obtain ⟨j, hj, rfl⟩ := run_eq_iterate hr
  obtain ⟨hg, hf, hs⟩ := @fullinv_iterate α b mc pages src prio hb hN hfin j
  have hhm := (loopCond_false_elim hexit).1
  have hge : pages.length * b ≤
      ((iter b mc src prio)^[j] (initState α)).nextAggregateOffset := by
    by_contra hlt
    push_neg at hlt
    have := hs.hasMoreIff.mpr hlt
    rw [hhm] at this
    cases this
  have hidx : pages.length ≤
      ((iter b mc src prio)^[j] (initState α)).nextAggregateOffset / b :=
    (Nat.le_div_iff_mul_le hb).mpr hge
  rw [hs.allF, aggConcat_stable _ _ hidx]

/-- At every point of a run over a nonempty finite all-success source, the
aggregated output so far is a prefix of the full ordered output: no record
is ever emitted before a record of a lower offset. -/
theorem finite_run_partial {b mc : Nat} {pages : List (List α)}
    {src : Nat → Option (Batch α)} (prio : Nat → Nat) (hb : 0 < b)
    (hN : 0 < pages.length) (hfin : FiniteSrc b pages src) (k : Nat) :
    ∃ rest : List α,
      ((iter b mc src prio)^[k] (initState α)).allFeatures ++ rest = pages.flatten := by
  obtain ⟨hg, hf, hs⟩ := @fullinv_iterate α b mc pages src prio hb hN hfin k
  refine ⟨(pages.drop
    (((iter b mc src prio)^[k] (initState α)).nextAggregateOffset / b)).flatten, ?_⟩
  rw [hs.allF, aggConcat_initial]

/-! ### Termination of runs over finite all-success sources -/

/-- A strict upper bound on the completion priorities of the pages the run
needs (pages `0, ..., pages.length - 1`). -/
def prioBound (b : Nat) (pages : List (List α)) (prio : Nat → Nat) : Nat :=
  ((List.range pages.length).map (fun i => prio (i * b))).foldr max 0 + 1

/-- Elements are bounded by their `foldr max`. -/
theorem le_foldr_max : ∀ (l : List Nat), ∀ x ∈ l, x ≤ l.foldr max 0
  | [], x, hx => by cases hx
  | y :: rest, x, hx => by
    rcases List.mem_cons.mp hx with rfl | hx2
    · exact le_max_left _ _
    · exact le_trans (le_foldr_max rest x hx2) (le_max_right _ _)

/-- Every needed page's completion priority is below the bound. -/
theorem prio_lt_prioBound {b : Nat} {pages : List (List α)} (prio : Nat → Nat)
    {i : Nat} (hi : i < pages.length) : prio (i * b) < prioBound b pages prio := by
  have hmem : prio (i * b) ∈ (List.range pages.length).map (fun j => prio (j * b)) :=
    List.mem_map.mpr ⟨i, List.mem_range.mpr hi, rfl⟩
  have := le_foldr_max _ _ hmem
  unfold prioBound
  omega

/-- The number of settled offsets with priority below `P`. -/
def settledSmall (prio : Nat → Nat) (P : Nat) (s : SchedState α) : Nat :=
  (s.settled.filter (fun o => prio o < P)).length

/-- Injective priorities admit at most `P` offsets of priority below `P`
among the (duplicate-free) settled offsets. -/
theorem settledSmall_le {prio : Nat → Nat} {P : Nat} {s : SchedState α}
    (hinj : Function.Injective prio) (hnd : s.settled.Nodup) :
    settledSmall prio P s ≤ P := by
  unfold settledSmall
  have hnd2 : (s.settled.filter (fun o => prio o < P)).Nodup :=
    List.Nodup.sublist (List.filter_sublist _) hnd
  have hnd3 : ((s.settled.filter (fun o => prio o < P)).map prio).Nodup :=
    hnd2.map hinj
  have hsub : ((s.settled.filter (fun o => prio o < P)).map prio).toFinset ⊆
      Finset.range P := by
    intro x hx
    rw [List.mem_toFinset] at hx
    obtain ⟨o, ho, rfl⟩ := List.mem_map.mp hx
    rw [Finset.mem_range]
    have := (List.mem_filter.mp ho).2
    exact of_decide_eq_true this
  calc (s.settled.filter (fun o => prio o < P)).length
      = ((s.settled.filter (fun o => prio o < P)).map prio).length := by
        rw [List.length_map]
    _ = ((s.settled.filter (fun o => prio o < P)).map prio).toFinset.card :=
        (List.toFinset_card_of_nodup hnd3).symm
    _ ≤ (Finset.range P).card := Finset.card_le_card hsub
    _ = P := Finset.card_range P

/-- The run measure: lexicographically, whether `hasMore` is still set, then
the number of needed pages not yet dispatched plus the number of
small-priority offsets not yet settled, then the size of the in-flight
window.  It strictly decreases at every iteration of a live run over a
finite all-success source. -/
def measureRun (b mc : Nat) (pages : List (List α)) (prio : Nat → Nat)
    (s : SchedState α) : Nat :=
  ((if s.hasMore then 1 else 0) * (pages.length + prioBound b pages prio + 1) +
    ((pages.length - s.nextFetchOffset / b) +
      (prioBound b pages prio - settledSmall prio (prioBound b pages prio) s))) *
    (mc + 1) + s.inFlight.length

/-- Two-digit lexicographic comparison in positional encoding. -/
theorem digit2_lt {aa ab ba bb B : Nat} (hbb : bb ≤ B)
    (h : ab < aa ∨ (ab = aa ∧ bb < ba)) :
    ab * (B + 1) + bb < aa * (B + 1) + ba := by
  rcases h with hlt | ⟨rfl, hlt⟩
  · have h1 : (ab + 1) * (B + 1) ≤ aa * (B + 1) :=
      Nat.mul_le_mul_right _ (by omega)
    have h2 : (ab + 1) * (B + 1) = ab * (B + 1) + (B + 1) := by ring
    omega
  · omega

/-- `lookupCompleted` misses exactly the absent keys. -/
theorem lookupCompleted_eq_none :
    ∀ {l : List (Nat × Batch α)} {k : Nat},
      lookupCompleted k l = none ↔ k ∉ l.map Prod.fst
  | [], k => by simp [lookupCompleted]
  | q :: rest, k => by
    by_cases hq : q.1 = k
    · simp only [lookupCompleted, hq, if_pos rfl]
      simp [← hq]
    · simp only [lookupCompleted, hq, if_false]
      rw [lookupCompleted_eq_none]
      simp only [List.map_cons, List.mem_cons]
      constructor
      · intro h hmem
        rcases hmem with heq | hmem2
        · exact hq heq.symm
        · exact h hmem2
      · intro h hmem
        exact h (Or.inr hmem)

/-- Deleting a different key does not change a lookup. -/
theorem lookupCompleted_filter_ne {k k2 : Nat} (hne : k ≠ k2) :
    ∀ l : List (Nat × Batch α),
      lookupCompleted k (l.filter (fun p => p.1 ≠ k2)) = lookupCompleted k l
  | [] => by simp [lookupCompleted]
  | q :: rest => by
    by_cases hq : q.1 = k
    · have hq2 : (decide (q.1 ≠ k2)) = true := by
        simp only [ne_eq, decide_eq_true_eq]
        rw [hq]
        exact hne
      rw [List.filter_cons, if_pos hq2]
      simp only [lookupCompleted]
      rw [if_pos hq, if_pos hq]
    · rw [List.filter_cons]
      by_cases hq2 : q.1 = k2
      · have hd : (decide (q.1 ≠ k2)) = false := by simp [hq2]
        rw [hd]
        simp only [Bool.false_eq_true, if_false]
        rw [lookupCompleted_filter_ne hne rest]
        simp only [lookupCompleted]
        rw [if_neg hq]
      · have hd : (decide (q.1 ≠ k2)) = true := by simp [hq2]
        rw [hd]
        simp only [if_true, lookupCompleted]
        rw [if_neg hq, if_neg hq]
        exact lookupCompleted_filter_ne hne rest

/-- If every needed multiple of `b` from the aggregation cursor up to `T` is
buffered in `completed`, the aggregation loop drains past `T`. -/
theorem aggregate_drains {b : Nat} (hb : 0 < b) (T : Nat) :
    ∀ (n : Nat) (s : SchedState α), s.completed.length ≤ n → b ∣ s.nextAggregateOffset →
      (∀ m : Nat, b ∣ m → s.nextAggregateOffset ≤ m → m < T →
        m ∈ s.completed.map Prod.fst) →
      T ≤ (aggregateN b n s).nextAggregateOffset := by
  intro n
  induction n with
  | zero =>
    intro s hn hdvd hall
    rcases Nat.lt_or_ge s.nextAggregateOffset T with hlt | hge
    · exfalso
      have hmem : s.nextAggregateOffset ∈ s.completed.map Prod.fst :=
        hall _ hdvd le_rfl hlt
      have : s.completed = [] := List.length_eq_zero.mp (by omega)
      rw [this] at hmem
      cases hmem
    · exact hge
  | succ n ih =>
    intro s hn hdvd hall
    rcases Nat.lt_or_ge s.nextAggregateOffset T with hlt | hge
    · have hmem : s.nextAggregateOffset ∈ s.completed.map Prod.fst :=
        hall _ hdvd le_rfl hlt
      have hlook : lookupCompleted s.nextAggregateOffset s.completed ≠ none := by
        intro hnone
        exact (lookupCompleted_eq_none.mp hnone) hmem
      cases hl : lookupCompleted s.nextAggregateOffset s.completed with
      | none => exact absurd hl hlook
      | some bch =>
        simp only [aggregateN, hl]
        have hlen : (s.completed.filter (fun p => p.1 ≠ s.nextAggregateOffset)).length ≤ n := by
          obtain ⟨p, hp, hp1, hp2⟩ := lookupCompleted_mem hl
          have hlt2 : (s.completed.filter
              (fun p => p.1 ≠ s.nextAggregateOffset)).length < s.completed.length :=
            List.length_filter_lt_length_iff_exists.mpr ⟨p, hp, by simp [hp1]⟩
          omega
        refine ih _ hlen (Dvd.dvd.add hdvd dvd_rfl) ?_
        intro m hm hm2 hm3
        show m ∈ (s.completed.filter (fun p => p.1 ≠ s.nextAggregateOffset)).map Prod.fst
        rw [keys_filter_mem]
        have h2 : s.nextAggregateOffset + b ≤ m := hm2
        exact ⟨hall m hm (by omega) hm3, by omega⟩
    · calc T ≤ s.nextAggregateOffset := hge
        _ ≤ (aggregateN b (n + 1) s).nextAggregateOffset := by
          obtain ⟨t, ht, hmono⟩ := aggregateN_extends b (n + 1) s
          exact hmono

/-- With `hasMore` cleared, the dispatch loop is a no-op. -/
theorem dispatchLoop_hasMore_false {b mc : Nat} {s : SchedState α}
    (hm : s.hasMore = false) : dispatchLoop b mc s = s := by
  unfold dispatchLoop
  cases hn : mc - s.inFlight.length with
  | zero => rfl
  | succ n =>
    simp only [dispatchN]
    rw [if_neg (by rintro ⟨h1, h2⟩; rw [hm] at h1; cases h1)]

/-- Decomposition of one iteration whose race settles offset `o`
successfully with batch `bch`. -/
theorem iter_decomp {b mc : Nat} {src : Nat → Option (Batch α)} {prio : Nat → Nat}
    {s : SchedState α} {o : Nat} {bch : Batch α}
    (hpm : pickMin prio (dispatchLoop b mc s).inFlight = some o)
    (hsome : src o = some bch) :
    iter b mc src prio s =
      { reportPhase (aggregateLoop b
          { dispatchLoop b mc s with
            completed := (dispatchLoop b mc s).completed ++ [(o, bch)]
            inFlight := (dispatchLoop b mc s).inFlight.erase o
            totalFetched := (dispatchLoop b mc s).totalFetched + bch.features.length
            settled := (dispatchLoop b mc s).settled ++ [o] })
        with iters := s.iters + 1 } := by
  rw [iter_eq]
  have h2 : settlePhase src prio (dispatchLoop b mc s) =
      { dispatchLoop b mc s with
        completed := (dispatchLoop b mc s).completed ++ [(o, bch)]
        inFlight := (dispatchLoop b mc s).inFlight.erase o
        totalFetched := (dispatchLoop b mc s).totalFetched + bch.features.length
        settled := (dispatchLoop b mc s).settled ++ [o] } := by
    unfold settlePhase
    rw [hpm]
    show settleAt src o (dispatchLoop b mc s) = _
    unfold settleAt
    rw [hsome]
  rw [h2]

/-- Appending a small-priority settled offset grows the small-priority
count by one. -/
theorem filter_small_append {prio : Nat → Nat} {P o : Nat} (hPo : prio o < P)
    (l : List Nat) :
    ((l ++ [o]).filter (fun x => prio x < P)).length =
      (l.filter (fun x => prio x < P)).length + 1 := by
  rw [List.filter_append]
  simp [hPo]

/-- Appending a large-priority settled offset leaves the small-priority
count unchanged. -/
theorem filter_big_append {prio : Nat → Nat} {P o : Nat} (hPo : ¬ prio o < P)
    (l : List Nat) :
    ((l ++ [o]).filter (fun x => prio x < P)).length =
      (l.filter (fun x => prio x < P)).length := by
  rw [List.filter_append]
  simp [hPo]

/-- Three-digit lexicographic comparison in positional encoding. -/
theorem mu_lt {a1 a2 d1 d2 c1 c2 B C : Nat} (hd2 : d2 ≤ B) (hc2 : c2 ≤ C)
    (h : a2 < a1 ∨ (a2 = a1 ∧ (d2 < d1 ∨ (d2 = d1 ∧ c2 < c1)))) :
    (a2 * (B + 1) + d2) * (C + 1) + c2 < (a1 * (B + 1) + d1) * (C + 1) + c1 := by
  apply digit2_lt hc2
  rcases h with h | ⟨rfl, h2⟩
  · exact Or.inl (digit2_lt hd2 (Or.inl h))
  · rcases h2 with h2 | ⟨rfl, h3⟩
    · exact Or.inl (digit2_lt hd2 (Or.inr ⟨rfl, h2⟩))
    · exact Or.inr ⟨rfl, h3⟩

/-- The run measure strictly decreases at every live iteration of a run
over a nonempty finite all-success source under an injective completion
order. -/
theorem measure_decreases {b mc : Nat} {pages : List (List α)}
    {src : Nat → Option (Batch α)} {prio : Nat → Nat} {s : SchedState α}
    (hb : 0 < b) (hmc : 0 < mc) (hfin : FiniteSrc b pages src)
    (hinj : Function.Injective prio) (hfull : FullInv b mc pages src s)
    (hcond : loopCond s = true) :
    measureRun b mc pages prio (iter b mc src prio s) < measureRun b mc pages prio s := by
  obtain ⟨hg, hf, hsi⟩ := hfull
  have hg1 : GInv b mc (dispatchLoop b mc s) := ginv_dispatchLoop hb hg
  have hne : (dispatchLoop b mc s).inFlight ≠ [] := by
    by_cases hhm : s.hasMore = true
    · have hfill := dispatchLoop_fills b mc s hhm hg.lenI
      intro hnil
      rw [hnil] at hfill
      simp at hfill
      omega
    · have hms : s.hasMore = false := by revert hhm; cases s.hasMore <;> simp
      rw [dispatchLoop_hasMore_false hms]
      intro hnil
      unfold loopCond at hcond
      rw [hms, hnil] at hcond
      simp at hcond
  cases hpm : pickMin prio (dispatchLoop b mc s).inFlight with
  | none => exact absurd (pickMin_eq_none.mp hpm) hne
  | some o =>
  have ho : o ∈ (dispatchLoop b mc s).inFlight := pickMin_mem hpm
  have hdvdo : b ∣ o := (hg1.keyI o ho).1
  have hsome : src o = some (finiteBatch pages (o / b)) := by
    have := hfin (o / b)
    rwa [Nat.div_mul_cancel hdvdo] at this
  have hdecomp := iter_decomp hpm hsome
  set s1 := dispatchLoop b mc s with hs1
  set s2 : SchedState α :=
    { s1 with
      completed := s1.completed ++ [(o, finiteBatch pages (o / b))]
      inFlight := s1.inFlight.erase o
      totalFetched := s1.totalFetched + (finiteBatch pages (o / b)).features.length
      settled := s1.settled ++ [o] } with hs2
  set s3 := aggregateLoop b s2 with hs3
  have hsp : settlePhase src prio s1 = s2 := by
    unfold settlePhase
    rw [hpm]
    show settleAt src o s1 = s2
    unfold settleAt
    rw [hsome, hs2]
  have hfull1 : FullInv b mc pages src s1 := by
    refine ⟨hg1, ?_, sinv_dispatchLoop hsi⟩
    intro q hq
    rw [(dispatchLoop_unchanged b mc s).1] at hq
    exact hf q hq
  have hfull2 : FullInv b mc pages src s2 := by
    rw [← hsp]
    exact ⟨ginv_settlePhase src prio hfull1.1, faithful_settle hfull1.2.1,
      sinv_settlePhase hb hfin hfull1.1 hfull1.2.2⟩
  have hfull3 : FullInv b mc pages src s3 :=
    fullinv_aggregateN hb hfin _ s2 hfull2
  have hsettled1 : s1.settled = s.settled := (dispatchLoop_unchanged b mc s).2.2.1
  have hc2bound : (s1.inFlight.erase o).length ≤ mc :=
    le_trans (List.Sublist.length_le (List.erase_sublist _ _)) hg1.lenI
  have hμ2 : measureRun b mc pages prio (iter b mc src prio s) =
      ((if s3.hasMore then 1 else 0) * (pages.length + prioBound b pages prio + 1) +
        ((pages.length - s1.nextFetchOffset / b) +
          (prioBound b pages prio -
            ((s1.settled ++ [o]).filter (fun x => prio x < prioBound b pages prio)).length))) *
        (mc + 1) + (s1.inFlight.erase o).length := by
    rw [hdecomp]
    unfold measureRun settledSmall
    have e1 : ({ reportPhase s3 with iters := s.iters + 1 }).hasMore = s3.hasMore :=
      (reportPhase_unchanged s3).2.2.2.2.2.2.1
    have e2 : ({ reportPhase s3 with iters := s.iters + 1 }).nextFetchOffset
        = s1.nextFetchOffset := by
      have e2a : ({ reportPhase s3 with iters := s.iters + 1 }).nextFetchOffset
          = s3.nextFetchOffset := (reportPhase_unchanged s3).2.2.2.2.1
      rw [e2a, hs3]
      exact (aggregateLoop_unchanged b s2).2.2.2.1
    have e3 : ({ reportPhase s3 with iters := s.iters + 1 }).settled
        = s1.settled ++ [o] := by
      have e3a : ({ reportPhase s3 with iters := s.iters + 1 }).settled
          = s3.settled := (reportPhase_unchanged s3).2.2.2.1
      rw [e3a, hs3]
      exact (aggregateLoop_unchanged b s2).2.2.1
    have e4 : ({ reportPhase s3 with iters := s.iters + 1 }).inFlight
        = s1.inFlight.erase o := by
      have e4a : ({ reportPhase s3 with iters := s.iters + 1 }).inFlight
          = s3.inFlight := (reportPhase_unchanged s3).2.1
      rw [e4a, hs3]
      exact (aggregateLoop_unchanged b s2).1
    rw [e1, e2, e3, e4]
  have hμ1 : measureRun b mc pages prio s =
      ((if s.hasMore then 1 else 0) * (pages.length + prioBound b pages prio + 1) +
        ((pages.length - s.nextFetchOffset / b) +
          (prioBound b pages prio -
            (s.settled.filter (fun x => prio x < prioBound b pages prio)).length))) *
        (mc + 1) + s.inFlight.length := rfl
  rw [hμ2, hμ1]
  set q1 := s.nextFetchOffset / b with hq1def
  set q2 := s1.nextFetchOffset / b with hq2def
  set w2 := ((s1.settled ++ [o]).filter (fun x => prio x < prioBound b pages prio)).length
    with hw2def
  set w1 := (s.settled.filter (fun x => prio x < prioBound b pages prio)).length
    with hw1def
  clear_value q1 q2 w1 w2
  have hd2bound : (pages.length - q2) + (prioBound b pages prio - w2) ≤
      pages.length + prioBound b pages prio := by omega
  by_cases hms : s.hasMore = true
  · -- the stream is still live: the dispatch pass fills the window
    have hlen1 : s1.inFlight.length = mc := dispatchLoop_fills b mc s hms hg.lenI
    by_cases hhm3 : s3.hasMore = true
    · -- the iteration does not end the stream
      by_cases hPo : prio o < prioBound b pages prio
      · -- a small-priority offset settles: the settled count rises
        have hsm2 : w2 = w1 + 1 := by
          rw [hw2def, hw1def, hsettled1]
          exact filter_small_append hPo s.settled
        have hsm2le : w2 ≤ prioBound b pages prio := by
          rw [hw2def]
          exact settledSmall_le hinj hfull2.1.nodupS
        obtain ⟨m, hmle, hgrow1, hgrow2⟩ := dispatchN_growth b mc (mc - s.inFlight.length) s
        have hnf1 : s1.nextFetchOffset = s.nextFetchOffset + b * m := hgrow2
        have hdivle : q1 ≤ q2 := by
          rw [hq1def, hq2def]
          exact Nat.div_le_div_right (by omega)
        apply mu_lt hd2bound hc2bound
        refine Or.inr ⟨by rw [hhm3, hms], Or.inl ?_⟩
        omega
      · -- a large-priority offset settles: some needed page is undispatched
        have hallbig : ∀ x ∈ s1.inFlight, prioBound b pages prio ≤ prio x :=
          fun x hx => le_trans (not_lt.mp hPo) (pickMin_min hpm x hx)
        have hno_need : ∀ i, i < pages.length → (i * b) ∉ s1.inFlight := by
          intro i hi hmem
          exact absurd (prio_lt_prioBound prio hi) (not_lt.mpr (hallbig _ hmem))
        have hsm2 : w2 = w1 := by
          rw [hw2def, hw1def, hsettled1]
          exact filter_big_append hPo s.settled
        by_cases hundisp : ∃ i, i < pages.length ∧ s1.nextFetchOffset ≤ i * b
        · obtain ⟨i0, hi0, hi0le⟩ := hundisp
          by_cases hltmc : s.inFlight.length < mc
          · -- the dispatch pass advanced the fetch cursor
            obtain ⟨m, hmle, hgrow1, hgrow2⟩ :=
              dispatchN_growth b mc (mc - s.inFlight.length) s
            have hnf1 : s1.nextFetchOffset = s.nextFetchOffset + b * m := hgrow2
            have hlenm : s1.inFlight.length = s.inFlight.length + m := by
              have : s1.inFlight = s.inFlight ++
                  (List.range m).map (fun i => s.nextFetchOffset + b * i) := hgrow1
              rw [this]
              simp
            have hm1 : 1 ≤ m := by omega
            have hq2m : q2 = q1 + m := by
              rw [hq2def, hq1def, hnf1]
              exact Nat.add_mul_div_left _ _ hb
            have hq2le : q2 ≤ pages.length - 1 := by
              rw [hq2def]
              have h1 : s1.nextFetchOffset / b ≤ (i0 * b) / b :=
                Nat.div_le_div_right hi0le
              rw [Nat.mul_div_cancel _ hb] at h1
              omega
            apply mu_lt hd2bound hc2bound
            refine Or.inr ⟨by rw [hhm3, hms], Or.inl ?_⟩
            omega
          · -- the window was already full: the settled offset frees a slot
            have hs1s : s1 = s := by
              rw [hs1]
              unfold dispatchLoop
              rw [show mc - s.inFlight.length = 0 from by omega]
              rfl
            have hq2q1 : q2 = q1 := by
              rw [hq2def, hq1def, hs1s]
            apply mu_lt hd2bound hc2bound
            refine Or.inr ⟨by rw [hhm3, hms], Or.inr ⟨?_, ?_⟩⟩
            · rw [hsm2, hq2q1]
            · have hom : o ∈ s.inFlight := by rw [← hs1s]; exact ho
              have hlen := List.length_erase_of_mem hom
              have hpos : 0 < s.inFlight.length := List.length_pos.mpr
                (by intro hnil; rw [hnil] at hom; cases hom)
              have : (s1.inFlight.erase o).length = (s.inFlight.erase o).length := by
                rw [hs1s]
              omega
        · -- every needed page is dispatched and settled: the stream ends,
          -- contradicting the assumption that `hasMore` survived
          exfalso
          push_neg at hundisp
          have hsettled_need : ∀ i, i < pages.length →
              (i * b) ∈ s1.completed.map Prod.fst ∨ i * b < s1.nextAggregateOffset := by
            intro i hi
            have hlt := hundisp i hi
            have hdisp := (hg1.dispatchedChar (i * b)).mp
              ⟨dvd_mul_left b i, by omega⟩
            rcases hdisp with hinf | hsettled
            · exact absurd hinf (hno_need i hi)
            · rcases (hg1.settledChar (i * b)).mp hsettled with hk | hfail | ⟨_, hagg⟩
              · exact Or.inl hk
              · rw [hfull1.2.2.failedNil] at hfail
                cases hfail
              · exact Or.inr hagg
          have hdrain : pages.length * b ≤ s3.nextAggregateOffset := by
            rw [hs3]
            show pages.length * b ≤ (aggregateN b s2.completed.length s2).nextAggregateOffset
            refine aggregate_drains hb (pages.length * b) s2.completed.length s2 le_rfl
              hfull2.1.dvdA ?_
            intro m hm hm2 hm3
            have hi : m / b < pages.length := by
              have h2 : m / b * b < pages.length * b :=
                lt_of_le_of_lt (Nat.div_mul_le_self m b) hm3
              exact lt_of_mul_lt_mul_right h2 (Nat.zero_le b)
            have hmeq : m / b * b = m := Nat.div_mul_cancel hm
            rcases hsettled_need (m / b) hi with hk | hagg
            · show m ∈ s2.completed.map Prod.fst
              have hkeys : s2.completed.map Prod.fst = s1.completed.map Prod.fst ++ [o] := by
                rw [hs2]
                simp
              rw [hkeys, List.mem_append]
              rw [hmeq] at hk
              exact Or.inl hk
            · rw [hmeq] at hagg
              have hna2 : s2.nextAggregateOffset = s1.nextAggregateOffset := rfl
              rw [hna2] at hm2
              omega
          have hiff := hfull3.2.2.hasMoreIff
          have := hiff.mp hhm3
          omega
    · -- the iteration ends the stream: the leading digit drops
      apply mu_lt hd2bound hc2bound
      refine Or.inl ?_
      have h3 : s3.hasMore = false := by
        revert hhm3
        cases s3.hasMore <;> simp
      rw [h3, hms]
      simp
  · -- `hasMore` was already false: nothing is dispatched, one offset settles
    have hmsf : s.hasMore = false := by revert hms; cases s.hasMore <;> simp
    have hs1s : s1 = s := by
      rw [hs1]
      exact dispatchLoop_hasMore_false hmsf
    have h3 : s3.hasMore = false := by
      cases h : s3.hasMore
      · rfl
      · exfalso
        have hmono := aggregateN_hasMore_mono b s2.completed.length s2
        have h2 : s2.hasMore = true := hmono h
        have h2b : s2.hasMore = s.hasMore := by
          rw [hs2]
          show s1.hasMore = s.hasMore
          rw [hs1s]
        rw [h2b, hmsf] at h2
        cases h2
    have hsmle : w1 ≤ w2 := by
      rw [hw2def, hw1def, hsettled1, List.filter_append]
      simp
    have hq2q1 : q2 = q1 := by
      rw [hq2def, hq1def, hs1s]
    have hom : o ∈ s.inFlight := by rw [← hs1s]; exact ho
    have hlenerase := List.length_erase_of_mem hom
    have hpos : 0 < s.inFlight.length := List.length_pos.mpr
      (by intro hnil; rw [hnil] at hom; cases hom)
    have hc2s : (s1.inFlight.erase o).length = (s.inFlight.erase o).length := by
      rw [hs1s]
    apply mu_lt hd2bound hc2bound
    have hbiteq : (if s3.hasMore then 1 else 0) = (if s.hasMore then 1 else 0) := by
      rw [h3, hmsf]
    rcases Nat.lt_or_ge ((pages.length - q2) + (prioBound b pages prio - w2))
        ((pages.length - q1) + (prioBound b pages prio - w1)) with hdlt | hdge
    · exact Or.inr ⟨hbiteq, Or.inl hdlt⟩
    · refine Or.inr ⟨hbiteq, Or.inr ⟨?_, ?_⟩⟩
      · omega
      · omega

/-- With fuel exceeding the measure, the scheduler loop returns. -/
theorem run_terminates_of_measure {b mc : Nat} {pages : List (List α)}
    {src : Nat → Option (Batch α)} {prio : Nat → Nat}
    (hb : 0 < b) (hmc : 0 < mc) (hfin : FiniteSrc b pages src)
    (hinj : Function.Injective prio) :
    ∀ (fuel : Nat) (s : SchedState α), FullInv b mc pages src s →
      measureRun b mc pages prio s < fuel →
      ∃ t : SchedState α, run b mc src prio fuel s = some t
  | 0, s, _, hμ => absurd hμ (by omega)
  | fuel + 1, s, hfull, hμ => by
    by_cases hc : loopCond s = true
    · have hdec := measure_decreases hb hmc hfin hinj hfull hc
      obtain ⟨t, ht⟩ := run_terminates_of_measure hb hmc hfin hinj fuel
        (iter b mc src prio s)
        (fullinv_iter prio hb hfin hfull) (by omega)
      refine ⟨t, ?_⟩
      unfold run
      rw [if_pos hc]
      exact ht
    · refine ⟨s, ?_⟩
      unfold run
      rw [if_neg hc]

/-- Every recorded progress report carries a positive estimated total: the
percent computation never divides by zero. -/
theorem reports_est_pos {b mc : Nat} {s : SchedState α} (h : GInv b mc s) :
    ∀ r ∈ s.reports, 0 < r.estimatedTotal := by
  intro r hr
  obtain ⟨hpos, hle, hltf, hest⟩ := h.reportsOk r hr
  rw [hest]
  cases hhm : r.hasMoreAt
  · simp only [Bool.false_eq_true, if_false]
    omega
  · simp only [if_true]
    have := le_max_left r.totalFetchedAt r.nextFetchOffsetAt
    omega

/-- Monotonicity bookkeeping for the progress reports that does not need
the key invariants: reported `loaded` values are bounded by the current
aggregate length and non-decreasing along the report history. -/
def ReportsMono (s : SchedState α) : Prop :=
  (∀ r ∈ s.reports, r.loaded ≤ s.allFeatures.length) ∧
  s.reports.Pairwise (fun r1 r2 => r1.loaded ≤ r2.loaded)

/-- A report in the state after the report phase is either an old one or
the freshly appended one, whose `loaded` field is the aggregate length. -/
theorem reportPhase_mem_reports {s : SchedState α} {r : Report}
    (h : r ∈ (reportPhase s).reports) :
    r ∈ s.reports ∨ r.loaded = s.allFeatures.length := by
  unfold reportPhase at h
  by_cases hl : s.allFeatures.length > 0
  · rw [if_pos hl] at h
    rcases List.mem_append.mp h with h1 | h2
    · exact Or.inl h1
    · right
      rw [List.mem_singleton] at h2
      rw [h2]
  · rw [if_neg hl] at h
    exact Or.inl h

/-- The report phase keeps the report history pairwise monotone in
`loaded`, given that old reports are bounded by the aggregate length. -/
theorem reportPhase_reports_pairwise {s : SchedState α}
    (hbd : ∀ r ∈ s.reports, r.loaded ≤ s.allFeatures.length)
    (hp : s.reports.Pairwise (fun r1 r2 => r1.loaded ≤ r2.loaded)) :
    (reportPhase s).reports.Pairwise (fun r1 r2 => r1.loaded ≤ r2.loaded) := by
  unfold reportPhase
  by_cases hl : s.allFeatures.length > 0
  · rw [if_pos hl]
    refine List.pairwise_append.mpr ⟨hp, List.pairwise_singleton _ _, ?_⟩
    intro x hx y hy
    rw [List.mem_singleton] at hy
    subst hy
    exact hbd x hx
  · rw [if_neg hl]
    exact hp

/-- One scheduler iteration preserves the report-monotonicity bookkeeping
(no assumptions on the configuration needed). -/
theorem reportsMono_iter (b mc : Nat) (src : Nat → Option (Batch α))
    (prio : Nat → Nat) {s : SchedState α} (h : ReportsMono s) :
    ReportsMono (iter b mc src prio s) := by
  obtain ⟨hbound, hpair⟩ := h
  rw [iter_eq]
  have hrepd : (dispatchLoop b mc s).reports = s.reports :=
    (dispatchLoop_unchanged b mc s).2.2.2.2.2.2.1
  have hafd : (dispatchLoop b mc s).allFeatures = s.allFeatures :=
    (dispatchLoop_unchanged b mc s).2.2.2.2.2.1
  have hreps : (settlePhase src prio (dispatchLoop b mc s)).reports = s.reports := by
    rw [(settlePhase_unchanged src prio _).2.2.2.2.1, hrepd]
  have hafs : (settlePhase src prio (dispatchLoop b mc s)).allFeatures = s.allFeatures := by
    rw [(settlePhase_unchanged src prio _).2.2.2.1, hafd]
  have hrepa : (aggregateLoop b (settlePhase src prio (dispatchLoop b mc s))).reports
      = s.reports := by
    rw [(aggregateLoop_unchanged b _).2.2.2.2.1, hreps]
  obtain ⟨t, hafa, _⟩ := aggregateN_extends b
    (settlePhase src prio (dispatchLoop b mc s)).completed.length
    (settlePhase src prio (dispatchLoop b mc s))
  have hafa2 : (aggregateLoop b (settlePhase src prio (dispatchLoop b mc s))).allFeatures
      = s.allFeatures ++ t := by
    rw [show (aggregateLoop b (settlePhase src prio (dispatchLoop b mc s))).allFeatures
      = (aggregateN b (settlePhase src prio (dispatchLoop b mc s)).completed.length
        (settlePhase src prio (dispatchLoop b mc s))).allFeatures from rfl, hafa, hafs]
  constructor
  · intro r hr
    have hr2 : r ∈ (reportPhase (aggregateLoop b
        (settlePhase src prio (dispatchLoop b mc s)))).reports := hr
    show r.loaded ≤ (reportPhase (aggregateLoop b
        (settlePhase src prio (dispatchLoop b mc s)))).allFeatures.length
    rw [(reportPhase_unchanged _).2.2.2.2.2.2.2.2, hafa2]
    rcases reportPhase_mem_reports hr2 with hold | hnew
    · rw [hrepa] at hold
      have := hbound r hold
      rw [List.length_append]
      omega
    · rw [hnew, hafa2]
  · show (reportPhase (aggregateLoop b (settlePhase src prio (dispatchLoop b mc s)))).reports.Pairwise _
    apply reportPhase_reports_pairwise
    · intro r hrm
      rw [hrepa] at hrm
      have := hbound r hrm
      rw [hafa2, List.length_append]
      omega
    · rw [hrepa]
      exact hpair

/-- The report-monotonicity bookkeeping holds along every run. -/
theorem reportsMono_iterate (b mc : Nat) (src : Nat → Option (Batch α))
    (prio : Nat → Nat) :
    ∀ k : Nat, ReportsMono ((iter b mc src prio)^[k] (initState α))
  | 0 => ⟨fun r hr => absurd hr (List.not_mem_nil r), List.Pairwise.nil⟩
  | k + 1 => by
    rw [Function.iterate_succ_apply']
    exact reportsMono_iter b mc src prio (reportsMono_iterate b mc src prio k)

/-- Once `hasMore` is false it stays false: no phase of an iteration can
set it back to true. -/
theorem iter_hasMore_false {b mc : Nat} {src : Nat → Option (Batch α)}
    {prio : Nat → Nat} {s : SchedState α} (hm : s.hasMore = false) :
    (iter b mc src prio s).hasMore = false := by
  rw [iter_eq]
  show (reportPhase (aggregateLoop b (settlePhase src prio (dispatchLoop b mc s)))).hasMore = false
  rw [(reportPhase_unchanged _).2.2.2.2.2.2.1]
  by_contra h
  rw [Bool.not_eq_false] at h
  have h2 := aggregateN_hasMore_mono b
    (settlePhase src prio (dispatchLoop b mc s)).completed.length
    (settlePhase src prio (dispatchLoop b mc s)) h
  rw [(settlePhase_unchanged src prio _).2.2.1,
    (dispatchLoop_unchanged b mc s).2.2.2.1, hm] at h2
  cases h2

/-! ### Concrete scenarios used by the claim witnesses and counterexamples -/

/-- A two-page finite source, batch size 1: page 0 = `[7]`, page 1 = `[8]`
(the last page's flag is false, ending the stream). -/
def pagesW : List (List Nat) := [[7], [8]]

/-- Settled outcomes over `pagesW`: every fetch succeeds with its page. -/
def srcPagesW : Nat → Option (Batch Nat) := fun o => some (finiteBatch pagesW o)

/-- `srcPagesW` is the finite all-success source over `pagesW` at batch
size 1. -/
theorem srcPagesW_finite : FiniteSrc 1 pagesW srcPagesW := by
  intro i
  rw [Nat.mul_one]
  rfl

/-- The state `run 1 2 srcPagesW (fun o => o) 3` ends in (computed). -/
def finalW : SchedState Nat :=
  ⟨[], [], [], 3, 3, false, 2, [7, 8], [0, 1, 2],
    [⟨1, 2, 50, true, 1, 2⟩, ⟨2, 2, 100, false, 2, 3⟩, ⟨2, 2, 100, false, 2, 3⟩], 3⟩

/-- A genuinely empty source: every fetch fulfills with an empty page and a
false flag. -/
def srcE : Nat → Option (Batch Nat) := fun _ => some ⟨[], false⟩

/-- The state `run 1 1 srcE (fun o => o) 2` ends in (computed). -/
def finalE : SchedState Nat := ⟨[], [], [], 1, 1, false, 0, [], [0], [], 1⟩

/-- An unbounded source: page at offset `o` holds the single record `o + 1`
and always signals more data. -/
def srcUnit : Nat → Option (Batch Nat) := fun o => some ⟨[o + 1], true⟩

/-- A completion order that starves offset 1 for a while: offset 1 settles
with priority 10, every other offset with priority equal to itself. -/
def prioDelay : Nat → Nat := fun o => if o = 1 then 10 else o

/-- Per-attempt outcomes that fail the first three attempts and succeed on
the fourth with the page `[9]`. -/
def attemptsW : Nat → Except Unit (RawResponse Nat) :=
  fun i => if i < 3 then .error () else .ok ⟨[9], false⟩

/-! ### The claims -/

/-- C1: Order invariant — over any finite source of `pages.length` pages in
which every fetch succeeds and any completion-order permutation (`prio`
injective or not; any priority function), a run of `fetchAllBatches` that
returns has output exactly the concatenation of the pages in ascending
offset order, and at every iteration boundary the output so far is a prefix
of that concatenation, so no record is ever emitted before a record of a
lower offset. -/
theorem claim1_order_invariant {b mc fuel : Nat} {pages : List (List α)}
    {src : Nat → Option (Batch α)} {prio : Nat → Nat} {final : SchedState α}
    (hb : 0 < b) (hN : 0 < pages.length) (hfin : FiniteSrc b pages src)
    (hrun : run b mc src prio fuel (initState α) = some final) :
    final.allFeatures = pages.flatten ∧
    ∀ k : Nat, ∃ rest : List α,
      ((iter b mc src prio)^[k] (initState α)).allFeatures ++ rest = pages.flatten :=
  ⟨finite_run_output hb hN hfin hrun, finite_run_partial prio hb hN hfin⟩

/-- C1 witness: the two-page source `pagesW` with batch size 1, window 2 and
identity completion order runs to `finalW`, whose output is
`pagesW.flatten = [7, 8]`. -/
theorem claim1_order_invariant_witness :
    (0 : Nat) < 1 ∧ 0 < pagesW.length ∧ FiniteSrc 1 pagesW srcPagesW ∧
    run 1 2 srcPagesW (fun o => o) 3 (initState Nat) = some finalW ∧
    (finalW.allFeatures = pagesW.flatten ∧
      ∀ k : Nat, ∃ rest : List Nat,
        ((iter 1 2 srcPagesW (fun o => o))^[k] (initState Nat)).allFeatures ++ rest
          = pagesW.flatten) := by
  have hrun : run 1 2 srcPagesW (fun o => o) 3 (initState Nat) = some finalW := by decide
  exact ⟨by decide, by decide, srcPagesW_finite, hrun,
    claim1_order_invariant (by decide) (by decide) srcPagesW_finite hrun⟩

/-- C2: Failed-hole scenario — with the source `srcHole` (offset 0 succeeds
with `[1, 2, 3]` and a true flag, offset 2000 rejects after its retries,
offset 4000 succeeds with a false flag, all later offsets succeed empty),
`fetchAllBatches 2000 4` never returns, whatever the completion order and
however much fuel the loop is given: the hole at 2000 blocks aggregation
forever, `hasMore` is never cleared, and the loop spins.  The claim says the
run terminates with the records of offset 0, `failed = {2000}` and no throw;
the code instead diverges.  After six iterations (identity completion
order) the state indeed holds `allFeatures = [1, 2, 3]`,
`failed = [2000]` — and `hasMore` still true. -/
theorem claim2_failed_hole_nontermination :
    (∀ (prio : Nat → Nat) (fuel : Nat),
      fetchAllBatches 2000 4 srcHole prio fuel = none) ∧
    ((iter 2000 4 srcHole (fun o => o))^[6] (initState Nat)).allFeatures = [1, 2, 3] ∧
    ((iter 2000 4 srcHole (fun o => o))^[6] (initState Nat)).failed = [2000] ∧
    ((iter 2000 4 srcHole (fun o => o))^[6] (initState Nat)).hasMore = true := by
  refine ⟨?_, by decide, by decide, by decide⟩
  intro prio fuel
  unfold fetchAllBatches
  rw [stuck_run_none prio fuel _ stuck_init]
  rfl

/-- C3 (amended part): across the reports of one run, `loaded` never
decreases. -/
theorem claim3_loaded_monotone (b mc : Nat) (src : Nat → Option (Batch α))
    (prio : Nat → Nat) (k : Nat) :
    ((iter b mc src prio)^[k] (initState α)).reports.Pairwise
      (fun r1 r2 => r1.loaded ≤ r2.loaded) :=
  (reportsMono_iterate b mc src prio k).2

/-- C3 counterexample: `percent` can decrease across consecutive reports.
Over `srcUnit` (one record per page, always more data) with batch size 1,
window 4 and completion order `prioDelay`, the first iteration reports
25% and the second 20%: the estimated total grows (speculative dispatch
advances `nextFetchOffset`) while `loaded` is stuck behind the
not-yet-settled offset 1. -/
theorem claim3_percent_decrease_cex :
    ((iter 1 4 srcUnit prioDelay)^[2] (initState Nat)).reports.map Report.percent
      = [25, 20] ∧ (20 : Nat) < 25 :=
  ⟨by decide, by decide⟩

/-- C4 (amended part): every report carries
`estimatedTotal = max totalFetched nextFetchOffset` while `hasMore` was true
at the instant of the call, and `estimatedTotal = totalFetched` (the value
at the instant of the call) otherwise. -/
theorem claim4_estimated_total_formula (b mc : Nat) (src : Nat → Option (Batch α))
    (prio : Nat → Nat) (hb : 0 < b) (k : Nat) (r : Report)
    (hr : r ∈ ((iter b mc src prio)^[k] (initState α)).reports) :
    r.estimatedTotal =
      (if r.hasMoreAt then max r.totalFetchedAt r.nextFetchOffsetAt
        else r.totalFetchedAt) :=
  ((ginv_iterate b mc hb src prio k).reportsOk r hr).2.2.2

/-- C4 witness: the first report of the `srcUnit`/`prioDelay` run with batch
size 1 and window 4 satisfies the amended formula (`4 = max 1 4`). -/
theorem claim4_estimated_total_formula_witness :
    (0 : Nat) < 1 ∧
    (⟨1, 4, 25, true, 1, 4⟩ : Report) ∈
      ((iter 1 4 srcUnit prioDelay)^[1] (initState Nat)).reports ∧
    (⟨1, 4, 25, true, 1, 4⟩ : Report).estimatedTotal =
      (if (⟨1, 4, 25, true, 1, 4⟩ : Report).hasMoreAt
        then max (⟨1, 4, 25, true, 1, 4⟩ : Report).totalFetchedAt
          (⟨1, 4, 25, true, 1, 4⟩ : Report).nextFetchOffsetAt
        else (⟨1, 4, 25, true, 1, 4⟩ : Report).totalFetchedAt) :=
  ⟨by decide, by decide,
    claim4_estimated_total_formula 1 4 srcUnit prioDelay (by decide) 1 _ (by decide)⟩

/-- C4 counterexample: the original formula `estimatedTotal = totalFetched`
while `hasMore` is wrong — the first report of the `srcUnit`/`prioDelay` run
has `hasMoreAt = true`, `estimatedTotal = 4` and `totalFetchedAt = 1`
(the code takes `max(totalFetched, nextFetchOffset)`, not
`totalFetched`). -/
theorem claim4_estimated_total_cex :
    ((iter 1 4 srcUnit prioDelay)^[1] (initState Nat)).reports.map
      (fun r => (r.estimatedTotal, r.totalFetchedAt, r.hasMoreAt)) = [(4, 1, true)] ∧
    (4 : Nat) ≠ 1 :=
  ⟨by decide, by decide⟩

/-- C5: Termination — over a nonempty finite source of `pages.length` pages
in which every fetch succeeds (the last page has fewer than `batchSize`
records, so its flag is false) and an injective completion order, the loop
exits within `measureRun ... + 1` iterations in a state with
`hasMore = false` and nothing in flight; moreover from any state with
`hasMore = false`, an iteration keeps `hasMore` false and dispatches no new
fetch (`nextFetchOffset` does not move). -/
theorem claim5_termination {b mc : Nat} {pages : List (List α)}
    {src : Nat → Option (Batch α)} {prio : Nat → Nat}
    (hb : 0 < b) (hmc : 0 < mc) (hN : 0 < pages.length)
    (hfin : FiniteSrc b pages src) (hinj : Function.Injective prio) :
    (∃ final : SchedState α,
      run b mc src prio (measureRun b mc pages prio (initState α) + 1) (initState α)
          = some final ∧
        final.hasMore = false ∧ final.inFlight = []) ∧
    (∀ s : SchedState α, s.hasMore = false →
      (iter b mc src prio s).hasMore = false ∧
      (iter b mc src prio s).nextFetchOffset = s.nextFetchOffset) := by
  constructor
  · obtain ⟨t, ht⟩ := run_terminates_of_measure hb hmc hfin hinj _ (initState α)
      (fullinv_init hb hN) (Nat.lt_succ_self _)
    have hexit := loopCond_false_elim (run_exit ht)
    exact ⟨t, ht, hexit.1, hexit.2⟩
  · intro s hms
    exact ⟨iter_hasMore_false hms, iter_no_dispatch_of_not_hasMore hms⟩

/-- C5 witness: the two-page source `pagesW` with batch size 1, window 2 and
the identity completion order. -/
theorem claim5_termination_witness :
    (0 : Nat) < 1 ∧ (0 : Nat) < 2 ∧ 0 < pagesW.length ∧
    FiniteSrc 1 pagesW srcPagesW ∧ Function.Injective (fun o : Nat => o) ∧
    ((∃ final : SchedState Nat,
      run 1 2 srcPagesW (fun o : Nat => o)
          (measureRun 1 2 pagesW (fun o : Nat => o) (initState Nat) + 1) (initState Nat)
          = some final ∧
        final.hasMore = false ∧ final.inFlight = []) ∧
    (∀ s : SchedState Nat, s.hasMore = false →
      (iter 1 2 srcPagesW (fun o : Nat => o) s).hasMore = false ∧
      (iter 1 2 srcPagesW (fun o : Nat => o) s).nextFetchOffset = s.nextFetchOffset)) :=
  ⟨by decide, by decide, by decide, srcPagesW_finite, fun a b h => h,
    claim5_termination (by decide) (by decide) (by decide) srcPagesW_finite
      (fun a b h => h)⟩

/-- C6: Concurrency bound — at the start of every scheduler-loop iteration
at most `mc` offsets are in flight; moreover every intermediate state of the
dispatch loop (the only phase that adds to `inFlight`) respects the bound,
and a settlement never grows `inFlight`, so the bound holds at every
instant. -/
theorem claim6_concurrency_bound (b mc : Nat) (src : Nat → Option (Batch α))
    (prio : Nat → Nat) :
    (∀ k : Nat, ((iter b mc src prio)^[k] (initState α)).inFlight.length ≤ mc) ∧
    (∀ (n : Nat) (s : SchedState α), s.inFlight.length ≤ mc →
      (dispatchN b mc n s).inFlight.length ≤ mc) ∧
    (∀ (src2 : Nat → Option (Batch α)) (o : Nat) (s : SchedState α),
      (settleAt src2 o s).inFlight.length ≤ s.inFlight.length) := by
  refine ⟨inflight_le_iterate b mc src prio, dispatchN_le_mc b mc, ?_⟩
  intro src2 o s
  unfold settleAt
  cases hs : src2 o
  · exact List.Sublist.length_le (List.erase_sublist _ _)
  · exact List.Sublist.length_le (List.erase_sublist _ _)

/-- C7: Empty-vs-failed outcome — a run that returns throws iff the
aggregated output is empty and `failed` is non-empty; with failures but a
non-empty output it returns the aggregate without throwing; with no
failures (in particular a genuinely empty source) it returns the aggregate,
empty or not. -/
theorem claim7_empty_vs_failed {b mc fuel : Nat} {src : Nat → Option (Batch α)}
    {prio : Nat → Nat} {final : SchedState α}
    (hrun : run b mc src prio fuel (initState α) = some final) :
    (fetchAllBatches b mc src prio fuel = some (.error ()) ↔
      final.allFeatures = [] ∧ final.failed ≠ []) ∧
    (final.failed ≠ [] → final.allFeatures ≠ [] →
      fetchAllBatches b mc src prio fuel = some (.ok final.allFeatures)) ∧
    (final.failed = [] →
      fetchAllBatches b mc src prio fuel = some (.ok final.allFeatures)) := by
  unfold fetchAllBatches
  rw [hrun]
  have hmap : (some final).map finishRun = some (finishRun final) := rfl
  rw [hmap]
  unfold finishRun
  by_cases hc : final.allFeatures.length = 0 ∧ final.failed.length > 0
  · rw [if_pos hc]
    refine ⟨⟨fun _ => ⟨List.length_eq_zero.mp hc.1, ?_⟩, fun _ => rfl⟩, ?_, ?_⟩
    · intro hnil
      rw [hnil] at hc
      simp at hc
    · intro _ hne
      exact absurd (List.length_eq_zero.mp hc.1) hne
    · intro hfnil
      rw [hfnil] at hc
      simp at hc
  · rw [if_neg hc]
    refine ⟨⟨fun h => ?_, fun h12 => ?_⟩, fun _ _ => rfl, fun _ => rfl⟩
    · injection h with h
      exact Except.noConfusion h
    · exact absurd ⟨by rw [h12.1]; rfl, List.length_pos.mpr h12.2⟩ hc

/-- C7 witness: the genuinely empty source `srcE` runs to `finalE`
(no records, no failures) and returns `ok []` rather than throwing. -/
theorem claim7_empty_vs_failed_witness :
    run 1 1 srcE (fun o => o) 2 (initState Nat) = some finalE ∧
    ((fetchAllBatches 1 1 srcE (fun o => o) 2 = some (.error ()) ↔
      finalE.allFeatures = [] ∧ finalE.failed ≠ []) ∧
    (finalE.failed ≠ [] → finalE.allFeatures ≠ [] →
      fetchAllBatches 1 1 srcE (fun o => o) 2 = some (.ok finalE.allFeatures)) ∧
    (finalE.failed = [] →
      fetchAllBatches 1 1 srcE (fun o => o) 2 = some (.ok finalE.allFeatures))) :=
  ⟨by decide, claim7_empty_vs_failed (by decide)⟩

/-- C8: Retry/backoff policy — `fetchBatch` (default budget: 3 retries,
4 attempts total) waits at most 3 backoff delays; if all four attempts fail
it fails terminally; if attempts `0..k-1` fail and attempt `k ≤ 3` succeeds
with response `r` it returns the processed page having waited exactly the
delays `2^0*1000, ..., 2^(k-1)*1000` ms (1s, 2s, 4s); and within a run a
terminally failed offset stays failed across iterations and is never in
flight again. -/
theorem claim8_retry_backoff (bs : Nat) (attempts : Nat → Except Unit (RawResponse α)) :
    (fetchBatch bs attempts).2.length ≤ 3 ∧
    ((∀ i, i ≤ 3 → attempts i = .error ()) → (fetchBatch bs attempts).1 = .error ()) ∧
    (∀ (k : Nat) (r : RawResponse α), k ≤ 3 →
      (∀ i, i < k → attempts i = .error ()) → attempts k = .ok r →
      fetchBatch bs attempts =
        (.ok (responseToBatch bs r), (List.range k).map (fun i => 2 ^ i * 1000))) ∧
    (∀ (b mc : Nat) (src : Nat → Option (Batch α)) (prio : Nat → Nat)
      (s : SchedState α), s.failed ⊆ (iter b mc src prio s).failed) ∧
    (∀ (b mc : Nat), 0 < b → ∀ (src : Nat → Option (Batch α)) (prio : Nat → Nat)
      (k o : Nat), o ∈ ((iter b mc src prio)^[k] (initState α)).inFlight →
      o ∉ ((iter b mc src prio)^[k] (initState α)).failed) := by
  refine ⟨fetchBatchGo_length_le bs attempts 3 0, ?_, ?_, ?_, ?_⟩
  · intro h
    exact fetchBatchGo_all_fail bs attempts 3 0 (fun i h1 h2 => h i (by omega))
  · intro k r hk hfail hok
    have hs := fetchBatchGo_success bs attempts 3 0 k r (Nat.zero_le k) (by omega)
      (fun i h1 h2 => hfail i h2) hok
    rw [Nat.sub_zero] at hs
    simp only [Nat.zero_add] at hs
    exact hs
  · intro b mc src prio s
    exact failed_subset_iter b mc src prio s
  · intro b mc hb src prio k o ho
    exact (ginv_iterate b mc hb src prio k).disjIF o ho

/-- C8 witness: outcomes that fail three times then succeed with the page
`[9]`: `fetchBatch` returns the page after waiting 1s, 2s, 4s. -/
theorem claim8_retry_backoff_witness :
    fetchBatch 5 attemptsW = (.ok ⟨[9], false⟩, [1000, 2000, 4000]) := by
  have h := (claim8_retry_backoff 5 attemptsW).2.2.1 3 ⟨[9], false⟩ (by decide)
    (fun i hi => by simp [attemptsW, hi]) rfl
  exact h.trans rfl

/-- C9 (amended part): the callback is invoked exactly once per iteration
whose final aggregate output is non-empty and not at all in an iteration
whose output is still empty; and every invocation actually made carries a
positive `estimatedTotal`, so the percent computation never divides by
zero (the `estimatedTotal = 0` case of the claim is unreachable). -/
theorem claim9_report_contract (b mc : Nat) (src : Nat → Option (Batch α))
    (prio : Nat → Nat) (hb : 0 < b) :
    (∀ s : SchedState α, (iter b mc src prio s).reports.length =
      s.reports.length +
        (if 0 < (iter b mc src prio s).allFeatures.length then 1 else 0)) ∧
    (∀ k : Nat, ∀ r ∈ ((iter b mc src prio)^[k] (initState α)).reports,
      0 < r.estimatedTotal) :=
  ⟨reports_step_iter b mc src prio,
    fun k r hr => reports_est_pos (ginv_iterate b mc hb src prio k) r hr⟩

/-- C9 witness: instantiated over `srcUnit`/`prioDelay` at batch size 1,
window 4. -/
theorem claim9_report_contract_witness :
    (0 : Nat) < 1 ∧
    ((∀ s : SchedState Nat, (iter 1 4 srcUnit prioDelay s).reports.length =
      s.reports.length +
        (if 0 < (iter 1 4 srcUnit prioDelay s).allFeatures.length then 1 else 0)) ∧
    (∀ k : Nat, ∀ r ∈ ((iter 1 4 srcUnit prioDelay)^[k] (initState Nat)).reports,
      0 < r.estimatedTotal)) :=
  ⟨by decide, claim9_report_contract 1 4 srcUnit prioDelay (by decide)⟩

/-- C9 counterexample: the callback is not invoked once per iteration — over
the genuinely empty source `srcE` the first iteration completes
(`iters = 1`) with no invocation at all (`reports = []`), because the code
guards the callback with `allFeatures.length > 0`. -/
theorem claim9_skipped_iteration_cex :
    ((iter 1 1 srcE (fun o => o))^[1] (initState Nat)).iters = 1 ∧
    ((iter 1 1 srcE (fun o => o))^[1] (initState Nat)).reports = [] :=
  ⟨by decide, by decide⟩

/-- C10: Implicit `FetchState` invariant — at the start of every
scheduler-loop iteration the key sets of `completed`, `inFlight` and
`failed` are pairwise disjoint; every key in any of the three is a multiple
of `batchSize` that is at least `nextAggregateOffset` and strictly below
`nextFetchOffset`; and `nextAggregateOffset ≤ nextFetchOffset`, both
multiples of `batchSize`. -/
theorem claim10_state_invariant (b mc : Nat) (hb : 0 < b)
    (src : Nat → Option (Batch α)) (prio : Nat → Nat) (k : Nat) :
    (∀ o ∈ ((iter b mc src prio)^[k] (initState α)).completed.map Prod.fst,
      o ∉ ((iter b mc src prio)^[k] (initState α)).inFlight ∧
      o ∉ ((iter b mc src prio)^[k] (initState α)).failed) ∧
    (∀ o ∈ ((iter b mc src prio)^[k] (initState α)).inFlight,
      o ∉ ((iter b mc src prio)^[k] (initState α)).failed) ∧
    (∀ o : Nat,
      (o ∈ ((iter b mc src prio)^[k] (initState α)).completed.map Prod.fst ∨
        o ∈ ((iter b mc src prio)^[k] (initState α)).inFlight ∨
        o ∈ ((iter b mc src prio)^[k] (initState α)).failed) →
      b ∣ o ∧ ((iter b mc src prio)^[k] (initState α)).nextAggregateOffset ≤ o ∧
        o < ((iter b mc src prio)^[k] (initState α)).nextFetchOffset) ∧
    b ∣ ((iter b mc src prio)^[k] (initState α)).nextAggregateOffset ∧
    b ∣ ((iter b mc src prio)^[k] (initState α)).nextFetchOffset ∧
    ((iter b mc src prio)^[k] (initState α)).nextAggregateOffset ≤
      ((iter b mc src prio)^[k] (initState α)).nextFetchOffset := by
  have h := ginv_iterate b mc hb src prio k
  exact ⟨fun o ho => ⟨h.disjCI o ho, h.disjCF o ho⟩, h.disjIF,
    fun o ho => ho.elim (h.keyC o) (fun h2 => h2.elim (h.keyI o) (h.keyF o)),
    h.dvdA, h.dvdN, h.aLeN⟩

/-- C10 witness: the invariant instantiated after two iterations of the
`srcUnit`/`prioDelay` run at batch size 1, window 4. -/
theorem claim10_state_invariant_witness :
    (0 : Nat) < 1 ∧
    ((∀ o ∈ ((iter 1 4 srcUnit prioDelay)^[2] (initState Nat)).completed.map Prod.fst,
      o ∉ ((iter 1 4 srcUnit prioDelay)^[2] (initState Nat)).inFlight ∧
      o ∉ ((iter 1 4 srcUnit prioDelay)^[2] (initState Nat)).failed) ∧
    (∀ o ∈ ((iter 1 4 srcUnit prioDelay)^[2] (initState Nat)).inFlight,
      o ∉ ((iter 1 4 srcUnit prioDelay)^[2] (initState Nat)).failed) ∧
    (∀ o : Nat,
      (o ∈ ((iter 1 4 srcUnit prioDelay)^[2] (initState Nat)).completed.map Prod.fst ∨
        o ∈ ((iter 1 4 srcUnit prioDelay)^[2] (initState Nat)).inFlight ∨
        o ∈ ((iter 1 4 srcUnit prioDelay)^[2] (initState Nat)).failed) →
      1 ∣ o ∧ ((iter 1 4 srcUnit prioDelay)^[2] (initState Nat)).nextAggregateOffset ≤ o ∧
        o < ((iter 1 4 srcUnit prioDelay)^[2] (initState Nat)).nextFetchOffset) ∧
    1 ∣ ((iter 1 4 srcUnit prioDelay)^[2] (initState Nat)).nextAggregateOffset ∧
    1 ∣ ((iter 1 4 srcUnit prioDelay)^[2] (initState Nat)).nextFetchOffset ∧
    ((iter 1 4 srcUnit prioDelay)^[2] (initState Nat)).nextAggregateOffset ≤
      ((iter 1 4 srcUnit prioDelay)^[2] (initState Nat)).nextFetchOffset) :=
  ⟨by decide, claim10_state_invariant 1 4 (by decide) srcUnit prioDelay 2⟩
